import Mathlib

/-!
Verification of the sequence/routine engine of `gpio_skill.py`.

The engine (functions `_resolve_template`, `_eval_condition`,
`_apply_templates`, `sequence`, and the `sequence` branch of `dispatch`)
is shallowly embedded below.  Python strings are modelled as `List Char`,
Python objects as the inductive `Val` (a JSON-like universe: the payloads
and results the engine manipulates), and Python `dict`s as insertion-ordered
association lists with unique keys.  The hardware dispatcher invoked for a
single step (`dispatch`) is an external collaborator of the engine; the
embedding takes it as a function parameter `exec : Dict → Dict`.

Modelling notes (fidelity caveats, none of which the claims touch):
* Python `float` values are modelled exactly as rationals (plus `inf`,
  `-inf`, `nan` and `-0.0`); IEEE-754 double rounding and overflow of
  parsed decimals are not modelled, so two distinct decimal spellings
  that round to the same double compare unequal here.
* `str.lower` and whitespace are modelled for ASCII.
* `repr` of strings escapes the quote, backslash, tab, newline and
  carriage return; other non-printables are kept as-is.
* `dict(x)` conversion of non-mapping iterables is not modelled: steps and
  branches are mappings, as the engine's docstring prescribes; a non-mapping
  where Python would raise `TypeError`/`ValueError` is modelled as a crash
  (`Option.none` outcome), as is an unhashable step name.
* Python dict keys compare by `==`; the model compares keys structurally,
  which agrees on the hashable values the engine uses as keys.
-/

namespace GpioSkill

/-- Python strings are modelled as lists of characters. -/
abbrev Str := List Char

/-- The character `{` (written via its code point to keep it out of literals). -/
def lb : Char := Char.ofNat 123

/-- The character `}`. -/
def rb : Char := Char.ofNat 125

/-- The character `'` (single quote). -/
def sq : Char := Char.ofNat 39

/-- The character `"` (double quote). -/
def dq : Char := Char.ofNat 34

/-- The character `\` (backslash). -/
def bsl : Char := Char.ofNat 92

/-- ASCII whitespace recognised by Python's `str.strip` / `float`. -/
def pyIsSpace (c : Char) : Bool :=
  c == ' ' || c == '\t' || c == '\n' || c == '\r' || c == Char.ofNat 11 || c == Char.ofNat 12

/-- Python `str.strip()`: drop whitespace from both ends. -/
def pyStrip (s : Str) : Str :=
  ((s.dropWhile pyIsSpace).reverse.dropWhile pyIsSpace).reverse

/-- ASCII `str.lower` on one character. -/
def lowerChar (c : Char) : Char :=
  if 'A' ≤ c && c ≤ 'Z' then Char.ofNat (c.toNat + 32) else c

/-- ASCII `str.lower`. -/
def lowerStr (s : Str) : Str := s.map lowerChar

/-- Decimal digit character for `d ≤ 9` (total: larger inputs map to `'9'`,
a case never reached by `natRepr`). -/
def digitChar (d : Nat) : Char :=
  match d with
  | 0 => '0' | 1 => '1' | 2 => '2' | 3 => '3' | 4 => '4'
  | 5 => '5' | 6 => '6' | 7 => '7' | 8 => '8' | _ => '9'

/-- Numeric value of a decimal digit character. -/
def digitVal (c : Char) : Nat := c.toNat - 48

/-- Decimal representation of a natural number, with explicit fuel so that
the definition is structurally recursive (fuel `n+1` always suffices since
the number loses a digit at each step). -/
def natReprAux : Nat → Nat → Str
  | 0, _ => []
  | fuel + 1, n =>
    if n < 10 then [digitChar n] else natReprAux fuel (n / 10) ++ [digitChar (n % 10)]

/-- Python `str(n)` for a natural number. -/
def natRepr (n : Nat) : Str := natReprAux (n + 1) n

/-- Python `str(k)` for an integer. -/
def intRepr (k : Int) : Str :=
  if k < 0 then '-' :: natRepr (-k).toNat else natRepr k.toNat

/-- Decode a digit string back to a natural number (used only to prove
`natRepr` injective). -/
def natDecode (s : Str) : Nat := s.foldl (fun a c => a * 10 + digitVal c) 0

/-- The universe of Python values the engine manipulates: strings, ints,
booleans, `None`, insertion-ordered dicts and lists. -/
inductive Val where
  | str (s : Str)
  | int (n : Int)
  | bool (b : Bool)
  | none
  | dict (d : List (Val × Val))
  | list (l : List Val)

/-- A Python dict: insertion-ordered association list (unique keys in any
dict Python actually builds). -/
abbrev Dict := List (Val × Val)

mutual

/-- Structural equality on `Val` (models Python `==` on the hashable
values the engine compares: strings, ints, booleans, `None`). -/
def valBeq : Val → Val → Bool
  | .str a, .str b => a == b
  | .int a, .int b => a == b
  | .bool a, .bool b => a == b
  | .none, .none => true
  | .dict a, .dict b => entriesBeq a b
  | .list a, .list b => listBeq a b
  | _, _ => false

/-- Pointwise equality of dict entries. -/
def entriesBeq : List (Val × Val) → List (Val × Val) → Bool
  | [], [] => true
  | (k₁, v₁) :: t₁, (k₂, v₂) :: t₂ => valBeq k₁ k₂ && valBeq v₁ v₂ && entriesBeq t₁ t₂
  | _, _ => false

/-- Pointwise equality of lists of values. -/
def listBeq : List Val → List Val → Bool
  | [], [] => true
  | a :: t₁, b :: t₂ => valBeq a b && listBeq t₁ t₂
  | _, _ => false

end

/-- Python `d.get(k)`: value of the first (unique) matching key. -/
def dictGet : Dict → Val → Option Val
  | [], _ => Option.none
  | (k₀, v₀) :: t, k => if valBeq k₀ k then some v₀ else dictGet t k

/-- Python `d[k] = v`: overwrite in place if the key exists (keeping its
position), otherwise append at the end. -/
def dictSet : Dict → Val → Val → Dict
  | [], k, v => [(k, v)]
  | (k₀, v₀) :: t, k, v => if valBeq k₀ k then (k₀, v) :: t else (k₀, v₀) :: dictSet t k v

/-- Python truthiness of a value. -/
def pyTruthy : Val → Bool
  | .str s => !s.isEmpty
  | .int n => !(n == 0)
  | .bool b => b
  | .none => false
  | .dict d => !d.isEmpty
  | .list l => !l.isEmpty

/-- Truthiness of `d.get(k)` (missing key is `None`, hence falsy). -/
def pyTruthyOpt : Option Val → Bool
  | Option.none => false
  | some v => pyTruthy v

/-- Python hashability: the engine uses step names as dict keys; dicts and
lists are unhashable and make `context[name] = …` raise. -/
def pyHashable : Val → Bool
  | .dict _ => false
  | .list _ => false
  | _ => true

/-- `dict(x)`: the identity on mappings; non-mappings make the engine raise
(modelled as `Option.none` by callers). -/
def pyDict : Val → Option Dict
  | .dict d => some d
  | _ => Option.none

/-- Escape one character inside a `repr`'d string using quote `q`. -/
def reprEsc (q : Char) (c : Char) : Str :=
  if c == bsl then [bsl, bsl]
  else if c == q then [bsl, q]
  else if c == '\n' then [bsl, 'n']
  else if c == '\r' then [bsl, 'r']
  else if c == '\t' then [bsl, 't']
  else [c]

/-- Python `repr` of a string: single quotes, switching to double quotes
when the string contains a single quote but no double quote. -/
def reprOfStr (s : Str) : Str :=
  let q := if s.contains sq && !(s.contains dq) then dq else sq
  q :: (s.flatMap (reprEsc q)) ++ [q]

mutual

/-- Python `str(v)`: the string itself for strings, `repr` otherwise
(for ints, bools, `None`, dicts and lists `str` and `repr` agree). -/
def pyStr : Val → Str
  | .str s => s
  | v => pyRepr v

/-- Python `repr(v)`. -/
def pyRepr : Val → Str
  | .str s => reprOfStr s
  | .int n => intRepr n
  | .bool true => "True".data
  | .bool false => "False".data
  | .none => "None".data
  | .dict d => lb :: pyReprEntries d ++ [rb]
  | .list l => '[' :: pyReprElems l ++ [']']

/-- Comma-separated `repr k: repr v` rendering of dict entries. -/
def pyReprEntries : List (Val × Val) → Str
  | [] => []
  | [(k, v)] => pyRepr k ++ ": ".data ++ pyRepr v
  | (k, v) :: rest => pyRepr k ++ ": ".data ++ pyRepr v ++ ", ".data ++ pyReprEntries rest

/-- Comma-separated rendering of list elements. -/
def pyReprElems : List Val → Str
  | [] => []
  | [v] => pyRepr v
  | v :: rest => pyRepr v ++ ", ".data ++ pyReprElems rest

end

/-- `str(d.get(k))` where a missing key reads as `None`. -/
def pyStrOpt : Option Val → Str
  | Option.none => "None".data
  | some v => pyStr v

/-! ### Python `float()` parsing (`_eval_condition`'s numeric attempt) -/

/-- A parsed Python float.  Finite values are modelled exactly as rationals
(see the fidelity note at the top of the file); `-0.0` is kept apart from
`0.0` because `str` distinguishes them. -/
inductive PyFloat where
  | finite (q : ℚ)
  | negZero
  | inf
  | negInf
  | nan
deriving DecidableEq

/-- PEP 515: every underscore must sit between two digits. -/
def vuGo : Bool → Str → Bool
  | _, [] => true
  | prev, c :: rest =>
    if c == '_' then
      prev && (match rest with | d :: _ => d.isDigit | [] => false) && vuGo false rest
    else vuGo c.isDigit rest

/-- Validity of underscore placement in a numeric literal. -/
def validUnderscores (s : Str) : Bool := vuGo false s

/-- Value of a digit string. -/
def digitsToNat (ds : Str) : Nat := ds.foldl (fun a c => a * 10 + digitVal c) 0

/-- Parse the optional exponent suffix; `some e` when `rest` is empty or a
complete well-formed exponent, `none` on trailing garbage. -/
def parseExp (rest : Str) : Option Int :=
  match rest with
  | [] => some 0
  | c :: t =>
    if c == 'e' || c == 'E' then
      let (eneg, t') := match t with
        | s :: t'' => if s == '-' then (true, t'') else if s == '+' then (false, t'') else (false, t)
        | [] => (false, t)
      let ds := t'.takeWhile Char.isDigit
      if !ds.isEmpty && (t'.drop ds.length).isEmpty then
        some (if eneg then -(digitsToNat ds : Int) else (digitsToNat ds : Int))
      else Option.none
    else Option.none

/-- Assemble a finite float from sign, integer digits, fraction digits and
the rest of the input (which must be a valid exponent or empty). -/
def mkNum (neg : Bool) (ip fp : Str) (rest : Str) : Option PyFloat :=
  if ip.isEmpty && fp.isEmpty then Option.none
  else
    match parseExp rest with
    | Option.none => Option.none
    | some e =>
      let mant : ℚ := (digitsToNat ip : ℚ) + (digitsToNat fp : ℚ) / ((10 : ℚ) ^ fp.length)
      let q : ℚ := mant * (10 : ℚ) ^ e
      if q = 0 && neg then some .negZero
      else some (.finite (if neg then -q else q))

/-- Python `float(s)`: strip whitespace, validate and remove underscores,
read an optional sign, then `inf`/`infinity`/`nan` (case-insensitive) or a
decimal literal with optional fraction and exponent. -/
def pyParseFloat (s₀ : Str) : Option PyFloat :=
  let s₁ := pyStrip s₀
  if validUnderscores s₁ then
    let s := s₁.filter (fun c => !(c == '_'))
    let (neg, t) := match s with
      | c :: rest => if c == '-' then (true, rest) else if c == '+' then (false, rest) else (false, s)
      | [] => (false, s)
    let low := lowerStr t
    if low == "inf".data || low == "infinity".data then some (if neg then .negInf else .inf)
    else if low == "nan".data then some .nan
    else
      let ip := t.takeWhile Char.isDigit
      let t₁ := t.drop ip.length
      match t₁ with
      | c :: t₂ =>
        if c == '.' then
          let fp := t₂.takeWhile Char.isDigit
          mkNum neg ip fp (t₂.drop fp.length)
        else mkNum neg ip [] t₁
      | [] => mkNum neg ip [] []
  else Option.none

/-- Order key of a float: `none` for `nan` (every ordered comparison with
`nan` is false), otherwise a point of `WithBot (WithTop ℚ)`. -/
def pfKey : PyFloat → Option (WithBot (WithTop ℚ))
  | .nan => Option.none
  | .inf => some ((⊤ : WithTop ℚ) : WithBot (WithTop ℚ))
  | .negInf => some (⊥ : WithBot (WithTop ℚ))
  | .negZero => some (((0 : ℚ) : WithTop ℚ) : WithBot (WithTop ℚ))
  | .finite q => some ((q : WithTop ℚ) : WithBot (WithTop ℚ))

/-- `a >= b` on floats. -/
def pfGe (a b : PyFloat) : Bool :=
  match pfKey a, pfKey b with
  | some x, some y => decide (y ≤ x)
  | _, _ => false

/-- `a <= b` on floats. -/
def pfLe (a b : PyFloat) : Bool :=
  match pfKey a, pfKey b with
  | some x, some y => decide (x ≤ y)
  | _, _ => false

/-- `a > b` on floats. -/
def pfGt (a b : PyFloat) : Bool :=
  match pfKey a, pfKey b with
  | some x, some y => decide (y < x)
  | _, _ => false

/-- `a < b` on floats. -/
def pfLt (a b : PyFloat) : Bool :=
  match pfKey a, pfKey b with
  | some x, some y => decide (x < y)
  | _, _ => false

/-- `str(a) == str(b)` on parsed floats: the canonical rendering is
injective, so this is structural equality (note `str` makes `nan` equal to
`nan`, unlike numeric `==`, and keeps `-0.0` apart from `0.0` — exactly the
source's behaviour for the `==`/`!=` lambdas). -/
def pfEqStr (a b : PyFloat) : Bool := decide (a = b)

/-! ### `_eval_condition` -/

/-- The six comparison operators, in the source's scan order. -/
inductive CmpOp where
  | ge | le | ne | eq | gt | lt
deriving DecidableEq

/-- Token of an operator. -/
def opTok : CmpOp → Str
  | .ge => ">=".data
  | .le => "<=".data
  | .ne => "!=".data
  | .eq => "==".data
  | .gt => ">".data
  | .lt => "<".data

/-- The operator scan list, in the source's order:
`>=`, `<=`, `!=`, `==`, `>`, `<`. -/
def opToks : List (Str × CmpOp) :=
  [(">=".data, .ge), ("<=".data, .le), ("!=".data, .ne),
   ("==".data, .eq), (">".data, .gt), ("<".data, .lt)]

/-- The source's `op_fn` lambdas applied to two parsed floats
(`!=`/`==` compare via `str`, the others numerically). -/
def applyOpNum : CmpOp → PyFloat → PyFloat → Bool
  | .ge => pfGe
  | .le => pfLe
  | .ne => fun a b => !(pfEqStr a b)
  | .eq => pfEqStr
  | .gt => pfGt
  | .lt => pfLt

/-- Python `s.split(tok, 1)` restricted to a found separator:
`some (before, after)` at the first occurrence of `tok`, `none` when `tok`
does not occur (so `isSome` is Python's `tok in s`). -/
def splitFirst (tok : Str) : Str → Option (Str × Str)
  | [] => if tok.isEmpty then some ([], []) else Option.none
  | c :: rest =>
    if tok.isPrefixOf (c :: rest) then some ([], (c :: rest).drop tok.length)
    else (splitFirst tok rest).map (fun p => (c :: p.1, p.2))

/-- The source's operator scan: the first token of `ops` that occurs
anywhere in `s` splits `s` at that token's first occurrence. -/
def findOp (s : Str) : List (Str × CmpOp) → Option (CmpOp × Str × Str)
  | [] => Option.none
  | (tok, op) :: rest =>
    match splitFirst tok s with
    | some (l, r) => some (op, l, r)
    | Option.none => findOp s rest

/-- The falsy spellings of the truthiness probe, in the source's order. -/
def falsyStrs : List Str :=
  ["false".data, "0".data, "none".data, "".data, "null".data]

/-! ### `_resolve_template` -/

/-- Scan for the closing `}`: `collect s = some (inner, tail)` when `s`
splits as `inner ++ rb :: tail` with no `}` in `inner` (the regex's greedy
`[^}]*` run), `none` when `s` has no `}` at all. -/
def collect : Str → Option (Str × Str)
  | [] => Option.none
  | c :: t => if c == rb then some ([], t) else (collect t).map (fun p => (c :: p.1, p.2))

/-- The regex substitution callback: given the text `ref` between the
braces, split once on `.`; a dotted reference looks the entry up and then
the field inside it when the entry is a dict (non-dicts fall through and are
stringified as-is); a plain name looks the entry up directly; on any failed
lookup the whole placeholder `{ref}` is returned verbatim. -/
def replacer (ref : Str) (ctx : Dict) : Str :=
  let whole := lb :: ref ++ [rb]
  match splitFirst ".".data ref with
  | some (p₀, p₁) =>
    match dictGet ctx (.str p₀) with
    | some (.dict d) =>
      match dictGet d (.str p₁) with
      | some fv => pyStr fv
      | Option.none => whole
    | some v => pyStr v
    | Option.none => whole
  | Option.none =>
    match dictGet ctx (.str ref) with
    | some v => pyStr v
    | Option.none => whole

/-- One pass of `re.sub(r"\x7b([^\x7d]+)\x7d", replacer, s)`, with fuel for
structural recursion (the scan consumes at least one character per step, so
fuel `s.length` suffices; see `resolveGo_fuel`). -/
def resolveGo (ctx : Dict) : Nat → Str → Str
  | _, [] => []
  | 0, s => s
  | fuel + 1, c :: rest =>
    if c == lb then
      match collect rest with
      | some (inner, tail) =>
        if inner.isEmpty then c :: resolveGo ctx fuel rest
        else replacer inner ctx ++ resolveGo ctx fuel tail
      | Option.none => c :: resolveGo ctx fuel rest
    else c :: resolveGo ctx fuel rest

/-- `_resolve_template` on a string. -/
def resolveStr (s : Str) (ctx : Dict) : Str := resolveGo ctx s.length s

/-- `_resolve_template(text, context)`: the source applies `str()` to its
input before substituting. -/
def resolve_template (text : Val) (ctx : Dict) : Str := resolveStr (pyStr text) ctx

/-- `_eval_condition(condition, context)`: resolve templates, scan for the
first operator in priority order and split there; try `float` on both
trimmed operands — on success apply the numeric comparison, on failure
(`except ValueError`) fall back to trimmed string equality for *every*
operator; with no operator anywhere, a truthiness probe of the trimmed,
lower-cased text. -/
def eval_condition (condition : Val) (ctx : Dict) : Bool :=
  let resolved := resolveStr (pyStr condition) ctx
  match findOp resolved opToks with
  | some (op, l, r) =>
    match pyParseFloat (pyStrip l), pyParseFloat (pyStrip r) with
    | some a, some b => applyOpNum op a b
    | _, _ => pyStrip l == pyStrip r
  | Option.none => !(falsyStrs.contains (lowerStr (pyStrip resolved)))

/-! ### `_apply_templates` and the sequence engine -/

mutual

/-- `_apply_templates(obj, context)`: resolve templates in every string,
recursively through dicts (values only) and lists; other values unchanged. -/
def applyTemplatesVal (ctx : Dict) : Val → Val
  | .str s => .str (resolveStr s ctx)
  | .dict d => .dict (applyTemplatesEntries ctx d)
  | .list l => .list (applyTemplatesList ctx l)
  | v => v

/-- `_apply_templates` over dict entries (keys are never rewritten). -/
def applyTemplatesEntries (ctx : Dict) : List (Val × Val) → List (Val × Val)
  | [] => []
  | (k, v) :: t => (k, applyTemplatesVal ctx v) :: applyTemplatesEntries ctx t

/-- `_apply_templates` over list elements. -/
def applyTemplatesList (ctx : Dict) : List Val → List Val
  | [] => []
  | v :: t => applyTemplatesVal ctx v :: applyTemplatesList ctx t

end

/-- `step = _apply_templates(raw_step, context)`: the payload handed to the
executor — the whole mapping, template-resolved, with no key removed. -/
def stepPayload (rawStep : Dict) (ctx : Dict) : Dict :=
  applyTemplatesEntries ctx rawStep

/-- Key `"success"`. -/
def succK : Val := .str "success".data
/-- Key `"stopped_at_step"`. -/
def stopK : Val := .str "stopped_at_step".data
/-- Key `"error"`. -/
def errK : Val := .str "error".data
/-- Key `"results"`. -/
def resK : Val := .str "results".data
/-- Key `"steps_run"`. -/
def runK : Val := .str "steps_run".data
/-- Key `"as"`. -/
def asK : Val := .str "as".data
/-- Key `"on_error"`. -/
def onErrK : Val := .str "on_error".data
/-- Key `"if"`. -/
def ifK : Val := .str "if".data
/-- Key `"_step"`. -/
def stepK : Val := .str "_step".data
/-- Key `"_type"`. -/
def typeK : Val := .str "_type".data
/-- Key `"_name"`. -/
def nameK : Val := .str "_name".data
/-- Key `"condition"`. -/
def condK : Val := .str "condition".data
/-- Key `"condition_met"`. -/
def condMetK : Val := .str "condition_met".data
/-- Key `"branch_taken"`. -/
def branchK : Val := .str "branch_taken".data
/-- Key `"steps"`. -/
def stepsK : Val := .str "steps".data

/-- The default positional step name `step_{i}`. -/
def defaultName (i : Nat) : Str := "step_".data ++ natRepr i

/-- `raw_step.get("on_error") != "continue"` (Python `!=` against a string
is true for any non-string value and for a different string). -/
def onErrNeCont (o : Option Val) : Bool :=
  match o with
  | some (.str s) => !(s == "continue".data)
  | _ => true

/-- The condition log entry, in the source's field order. -/
def condEntry (i : Nat) (c : Val) (cm : Bool) (taken : Str) : Dict :=
  [(stepK, .int (i : Int)), (typeK, .str "condition".data), (condK, c),
   (condMetK, .bool cm), (branchK, .str taken)]

/-- `{**result, "_step": i, "_name": step_name}`. -/
def mergeEntry (r : Dict) (i : Nat) (n : Val) : Dict :=
  dictSet (dictSet r stepK (.int (i : Int))) nameK n

/-- The composed abort message
`f"Step {i} ('{step_name}') failed: {result.get('error')}"`. -/
def abortMsg (i : Nat) (n : Val) (e : Option Val) : Str :=
  "Step ".data ++ natRepr i ++ " (".data ++ sq :: pyStr n ++ sq :: ") failed: ".data
    ++ pyStrOpt e

/-- The early-return dict of an aborted run, in the source's field order. -/
def mkAbort (i : Nat) (n : Val) (e : Option Val) (res : List Dict) : Dict :=
  [(succK, .bool false), (stopK, .int (i : Int)), (errK, .str (abortMsg i n e)),
   (resK, .list (res.map Val.dict))]

/-- The final dict of a completed run, in the source's field order. -/
def mkDone (res : List Dict) : Dict :=
  [(succK, .bool true), (runK, .int (res.length : Int)), (resK, .list (res.map Val.dict))]

/-- Outcome of one action step (the tail of the loop body, lines 782–796):
crash (unhashable name), abort, or proceed with the updated context. -/
inductive ActionRes where
  | crash
  | abort (entry : Dict) (n : Val) (e : Option Val) (ctx' : Dict)
  | next (entry : Dict) (ctx' : Dict)

/-- The action part of the loop body: resolve templates into the payload,
determine the step name (`as` or the positional default), invoke the
executor, store the result in the context, build the tagged log entry, and
apply the abort/continue policy. -/
def actionOut (exec : Dict → Dict) (rawStep : Dict) (i : Nat) (ctx : Dict) : ActionRes :=
  let payload := stepPayload rawStep ctx
  let name := (dictGet rawStep asK).getD (.str (defaultName i))
  if pyHashable name then
    let result := exec payload
    let ctx' := dictSet ctx name (.dict result)
    let entry := mergeEntry result i name
    if !(pyTruthyOpt (dictGet result succK)) && onErrNeCont (dictGet rawStep onErrK) then
      .abort entry name (dictGet result errK) ctx'
    else .next entry ctx'
  else .crash

/-- State of the loop after consuming a list of steps: still running (with
the current context and log), returned early (aborted), or crashed on an
uncaught exception. -/
inductive LoopRes where
  | running (ctx : Dict) (res : List Dict)
  | aborted (ctx : Dict) (res : List Dict) (i : Nat) (n : Val) (e : Option Val)
  | crashed

/-- The `for i, raw_step in enumerate(steps)` loop of `sequence`: each raw
step is copied (`dict(raw_step)`); a step with an `if` key is evaluated
against the current context, logged, and replaced by its selected branch
(or skipped when the branch is absent); the selected action step then runs
via `actionOut`. -/
def seqLoop (exec : Dict → Dict) : List Val → Nat → Dict → List Dict → LoopRes
  | [], _, ctx, res => .running ctx res
  | rawV :: rest, i, ctx, res =>
    match pyDict rawV with
    | Option.none => .crashed
    | some raw₀ =>
      match dictGet raw₀ ifK with
      | some condV =>
        let cm := eval_condition condV ctx
        let bk : Str := if cm then "then".data else "else".data
        let branch := dictGet raw₀ (.str bk)
        let taken : Str := if pyTruthyOpt branch then bk else "none".data
        let res' := res ++ [condEntry i condV cm taken]
        match branch with
        | Option.none => seqLoop exec rest (i + 1) ctx res'
        | some bv =>
          match pyDict bv with
          | Option.none => .crashed
          | some bd =>
            match actionOut exec bd i ctx with
            | .crash => .crashed
            | .abort e n err ctx' => .aborted ctx' (res' ++ [e]) i n err
            | .next e ctx' => seqLoop exec rest (i + 1) ctx' (res' ++ [e])
      | Option.none =>
        match actionOut exec raw₀ i ctx with
        | .crash => .crashed
        | .abort e n err ctx' => .aborted ctx' (res ++ [e]) i n err
        | .next e ctx' => seqLoop exec rest (i + 1) ctx' (res ++ [e])

/-- `sequence(steps)`: run the loop from an empty context and log, and
package the outcome dict (`None` models an uncaught exception). -/
def sequence (exec : Dict → Dict) (steps : List Val) : Option Dict :=
  match seqLoop exec steps 0 [] [] with
  | .running _ res => some (mkDone res)
  | .aborted _ res i n e => some (mkAbort i n e res)
  | .crashed => Option.none

/-- The execution context carried by a loop state (none after a crash). -/
def loopCtx : LoopRes → Option Dict
  | .running ctx _ => some ctx
  | .aborted ctx _ _ _ _ => some ctx
  | .crashed => Option.none

/-- The execution context after the first `k` steps of a run (instrumented
projection of the loop state; the source keeps `context` local). -/
def ctxAfter (exec : Dict → Dict) (steps : List Val) (k : Nat) : Option Dict :=
  loopCtx (seqLoop exec (steps.take k) 0 [] [])

/-- The rejection message of the dispatcher's `sequence` branch. -/
def seqReqErr : Dict :=
  [(succK, .bool false),
   (errK, .str "sequence requires: steps (non-empty list of command payloads)".data)]

/-- The `cmd == "sequence"` branch of `dispatch` (lines 1016–1020): reject a
missing, non-list or empty `steps` before entering the controller. -/
def dispatchSequence (exec : Dict → Dict) (payload : Dict) : Option Dict :=
  match dictGet payload stepsK with
  | some (.list l) => if l.isEmpty then some seqReqErr else sequence exec l
  | _ => some seqReqErr

/-- Boundary contract of the Step Executor (spec §6): every result carries a
boolean `success` field. -/
def GoodExec (exec : Dict → Dict) : Prop :=
  ∀ p, ∃ b, dictGet (exec p) succK = some (.bool b)

/-- Outcome of the spec-side per-step failure check. -/
inductive SpecAct where
  | crash
  | failStop (n : Val) (e : Option Val)
  | next (ctx' : Dict)

/-- Modelled from the spec's failure-policy words (§4.3 step 7): execute the
chosen action step and stop exactly when the executor result's success flag
is `false` and the step's `on_error` is not exactly `"continue"`. -/
def specActionCheck (exec : Dict → Dict) (rawStep : Dict) (i : Nat) (ctx : Dict) : SpecAct :=
  let name := (dictGet rawStep asK).getD (.str (defaultName i))
  if pyHashable name then
    let result := exec (stepPayload rawStep ctx)
    let failFlag : Bool := match dictGet result succK with
      | some (.bool false) => true
      | _ => false
    if failFlag && onErrNeCont (dictGet rawStep onErrK) then
      .failStop name (dictGet result errK)
    else .next (dictSet ctx name (.dict result))
  else .crash

/-- Modelled from the spec's words: walk the steps in order, maintaining the
context exactly as the controller does, and report the first index whose
executed action satisfies the abort condition (`some (some (i, name, err))`),
`some none` when no step does, and `none` when the run raises. -/
def specAbortInfo (exec : Dict → Dict) : List Val → Nat → Dict →
    Option (Option (Nat × Val × Option Val))
  | [], _, _ => some Option.none
  | rawV :: rest, i, ctx =>
    match pyDict rawV with
    | Option.none => Option.none
    | some raw₀ =>
      match dictGet raw₀ ifK with
      | some condV =>
        match dictGet raw₀ (.str (if eval_condition condV ctx then "then".data else "else".data)) with
        | Option.none => specAbortInfo exec rest (i + 1) ctx
        | some bv =>
          match pyDict bv with
          | Option.none => Option.none
          | some bd =>
            match specActionCheck exec bd i ctx with
            | .crash => Option.none
            | .failStop n e => some (some (i, n, e))
            | .next ctx' => specAbortInfo exec rest (i + 1) ctx'
      | Option.none =>
        match specActionCheck exec raw₀ i ctx with
        | .crash => Option.none
        | .failStop n e => some (some (i, n, e))
        | .next ctx' => specAbortInfo exec rest (i + 1) ctx'

/-- The abort report of a whole run, from the spec's description. -/
def abortInfo (exec : Dict → Dict) (steps : List Val) :
    Option (Option (Nat × Val × Option Val)) :=
  specAbortInfo exec steps 0 []

/-- Does a step (and, for a conditional, each of its branch mappings) avoid
the explicit `as` field?  Under this condition every executed action is
named by its positional default. -/
def noAsStep (v : Val) : Bool :=
  match pyDict v with
  | Option.none => true
  | some d =>
    (dictGet d asK).isNone
      && (match dictGet d (.str "then".data) with
          | some (.dict bd) => (dictGet bd asK).isNone
          | _ => true)
      && (match dictGet d (.str "else".data) with
          | some (.dict bd) => (dictGet bd asK).isNone
          | _ => true)

/-- No step of the list carries an explicit `as`. -/
def noAsSteps (steps : List Val) : Bool := steps.all noAsStep

/-- The operator tokens scanned before a given operator, in priority order. -/
def opsBefore : CmpOp → List Str
  | .ge => []
  | .le => [">=".data]
  | .ne => [">=".data, "<=".data]
  | .eq => [">=".data, "<=".data, "!=".data]
  | .gt => [">=".data, "<=".data, "!=".data, "==".data]
  | .lt => [">=".data, "<=".data, "!=".data, "==".data, ">".data]

/-- The abort outcome visible in a loop state, in the shape reported by
`specAbortInfo`: `none` for a crash, `some none` for a completed run,
`some (some (i, name, err))` for an abort. -/
def loopOutcome : LoopRes → Option (Option (Nat × Val × Option Val))
  | .crashed => Option.none
  | .aborted _ _ i n e => some (some (i, n, e))
  | .running _ _ => some Option.none

/-! ## Helper lemmas -/

theorem digitVal_digitChar {d : Nat} (hd : d < 10) : digitVal (digitChar d) = d := by
  interval_cases d <;> rfl

theorem natDecode_append (xs : Str) (c : Char) :
    natDecode (xs ++ [c]) = natDecode xs * 10 + digitVal c := by
  simp [natDecode, List.foldl_append]

theorem natDecode_natReprAux : ∀ fuel n, n < fuel → natDecode (natReprAux fuel n) = n := by
  intro fuel
  induction fuel with
  | zero => omega
  | succ f ih =>
    intro n hn
    by_cases h10 : n < 10
    · simp only [natReprAux, if_pos h10]
      simpa [natDecode] using digitVal_digitChar h10
    · have hdiv : n / 10 < f := by
        have h1 : n / 10 < n := Nat.div_lt_self (by omega) (by omega)
        omega
      simp only [natReprAux, if_neg h10]
      rw [natDecode_append, ih _ hdiv, digitVal_digitChar (Nat.mod_lt _ (by omega))]
      omega

theorem natRepr_inj {m n : Nat} (h : natRepr m = natRepr n) : m = n := by
  have hm := natDecode_natReprAux (m + 1) m (by omega)
  have hn := natDecode_natReprAux (n + 1) n (by omega)
  rw [← hm, ← hn]
  simp [natRepr] at h
  rw [h]

theorem defaultName_inj {i j : Nat} (h : defaultName i = defaultName j) : i = j := by
  apply natRepr_inj
  simpa [defaultName] using h

/-- Structural key equality against a string key is genuine equality. -/
theorem valBeq_str_iff (k : Val) (s : Str) : valBeq k (.str s) = true ↔ k = .str s := by
  cases k <;> simp [valBeq]

theorem valBeq_str_str (a b : Str) : valBeq (.str a) (.str b) = (a == b) := rfl

theorem dictGet_dictSet_same (d : Dict) (s : Str) (v : Val) :
    dictGet (dictSet d (.str s) v) (.str s) = some v := by
  induction d with
  | nil => simp [dictSet, dictGet, valBeq_str_str]
  | cons kv t ih =>
    obtain ⟨k₀, v₀⟩ := kv
    by_cases hk : valBeq k₀ (.str s) = true
    · simp [dictSet, dictGet, hk]
    · simp [dictSet, dictGet, hk, ih]

theorem dictGet_dictSet_other (d : Dict) (s t : Str) (v : Val) (hst : s ≠ t) :
    dictGet (dictSet d (.str s) v) (.str t) = dictGet d (.str t) := by
  induction d with
  | nil =>
    simp [dictSet, dictGet, valBeq_str_str, beq_eq_false_iff_ne.mpr hst]
  | cons kv tl ih =>
    obtain ⟨k₀, v₀⟩ := kv
    by_cases hk : valBeq k₀ (.str s) = true
    · have hk' : k₀ = .str s := (valBeq_str_iff _ _).mp hk
      subst hk'
      simp [dictSet, dictGet, valBeq_str_str, beq_eq_false_iff_ne.mpr hst,
        beq_self_eq_true]
    · simp [dictSet, dictGet, hk, ih]

/-- Setting a key absent from the dict appends the new entry at the end. -/
theorem dictSet_fresh (d : Dict) (k v : Val)
    (h : ∀ kv ∈ d, valBeq kv.1 k = false) :
    dictSet d k v = d ++ [(k, v)] := by
  induction d with
  | nil => rfl
  | cons kv t ih =>
    have h₀ := h kv (by simp)
    simp only [dictSet, h₀]
    simp only [Bool.false_eq_true, if_false, List.cons_append, List.cons.injEq, true_and]
    exact ih (fun kv' hkv' => h kv' (by simp [hkv']))

theorem dictGet_mergeEntry_step (r : Dict) (i : Nat) (n : Val) :
    dictGet (mergeEntry r i n) stepK = some (.int (i : Int)) := by
  unfold mergeEntry
  rw [show nameK = Val.str "_name".data from rfl, show stepK = Val.str "_step".data from rfl]
  rw [dictGet_dictSet_other _ _ _ _ (by decide)]
  exact dictGet_dictSet_same _ _ _

theorem dictGet_condEntry_step (i : Nat) (c : Val) (cm : Bool) (tk : Str) :
    dictGet (condEntry i c cm tk) stepK = some (.int (i : Int)) := by
  simp [condEntry, dictGet, valBeq_str_str, stepK]

theorem collect_sound :
    ∀ s inner tail, collect s = some (inner, tail) →
      s = inner ++ rb :: tail ∧ rb ∉ inner := by
  intro s
  induction s with
  | nil => intro inner tail h; simp [collect] at h
  | cons c t ih =>
    intro inner tail h
    by_cases hc : c == rb
    · rw [collect, if_pos hc] at h
      injection h with h'
      injection h' with h₁ h₂
      subst h₁; subst h₂
      simp [eq_of_beq hc]
    · rw [collect, if_neg hc] at h
      cases hcol : collect t with
      | none => rw [hcol] at h; simp at h
      | some p =>
        obtain ⟨i', t'⟩ := p
        rw [hcol] at h
        simp only [Option.map_some'] at h
        injection h with h'
        injection h' with h₁ h₂
        subst h₁; subst h₂
        obtain ⟨hs, hmem⟩ := ih i' t' hcol
        refine ⟨by simp [hs], ?_⟩
        simp only [List.mem_cons, not_or]
        exact ⟨fun hEq => by simp [hEq] at hc, hmem⟩

theorem collect_complete :
    ∀ ref post, rb ∉ ref → collect (ref ++ rb :: post) = some (ref, post) := by
  intro ref
  induction ref with
  | nil => intro post _; simp [collect]
  | cons c t ih =>
    intro post hmem
    simp only [List.mem_cons, not_or] at hmem
    have hc : (c == rb) = false := beq_eq_false_iff_ne.mpr (fun hEq => hmem.1 hEq.symm)
    simp [collect, hc, ih post hmem.2]

theorem resolveGo_fuel :
    ∀ f g s ctx, s.length ≤ f → s.length ≤ g →
      resolveGo ctx f s = resolveGo ctx g s := by
  intro f
  induction f with
  | zero =>
    intro g s ctx hf _
    have : s = [] := List.length_eq_zero.mp (by omega)
    subst this
    cases g <;> rfl
  | succ f' ih =>
    intro g s ctx hf hg
    cases s with
    | nil => cases g <;> rfl
    | cons c rest =>
      cases g with
      | zero => simp at hg
      | succ g' =>
        have hrest : rest.length ≤ f' := by simp at hf; omega
        have hrest' : rest.length ≤ g' := by simp at hg; omega
        by_cases hc : c == lb
        · simp only [resolveGo, hc, if_pos]
          cases hcol : collect rest with
          | none => rw [ih g' rest ctx hrest hrest']
          | some p =>
            obtain ⟨inner, tail⟩ := p
            obtain ⟨hs, _⟩ := collect_sound rest inner tail hcol
            have htail : tail.length ≤ f' := by
              subst hs; simp at hf ⊢; omega
            have htail' : tail.length ≤ g' := by
              subst hs; simp at hg ⊢; omega
            by_cases hin : inner.isEmpty
            · simp [hin, ih g' rest ctx hrest hrest']
            · simp [hin, ih g' tail ctx htail htail']
        · simp only [resolveGo, hc, Bool.false_eq_true, if_false]
          rw [ih g' rest ctx hrest hrest']

theorem resolveGo_eq_resolveStr (f : Nat) (s : Str) (ctx : Dict) (hf : s.length ≤ f) :
    resolveGo ctx f s = resolveStr s ctx :=
  resolveGo_fuel f s.length s ctx hf le_rfl

/-- Plain text before the first `{` passes through the resolver verbatim. -/
theorem resolveStr_append_of_no_lb :
    ∀ pre t ctx, lb ∉ pre → resolveStr (pre ++ t) ctx = pre ++ resolveStr t ctx := by
  intro pre
  induction pre with
  | nil => intro t ctx _; simp
  | cons p pre' ih =>
    intro t ctx hmem
    simp only [List.mem_cons, not_or] at hmem
    have hp : (p == lb) = false := beq_eq_false_iff_ne.mpr (fun hEq => hmem.1 hEq.symm)
    show resolveGo ctx ((p :: (pre' ++ t)).length) (p :: (pre' ++ t)) = _
    simp only [List.length_cons, resolveGo, hp, Bool.false_eq_true, if_false]
    rw [resolveGo_eq_resolveStr _ _ _ le_rfl, ih t ctx hmem.2]
    simp

/-- A well-formed placeholder at the head of the input is replaced via
`replacer`, and scanning resumes after its closing brace. -/
theorem resolveStr_placeholder_head (ref post : Str) (ctx : Dict)
    (hne : ref ≠ []) (hrb : rb ∉ ref) :
    resolveStr (lb :: ref ++ rb :: post) ctx = replacer ref ctx ++ resolveStr post ctx := by
  show resolveGo ctx ((lb :: (ref ++ rb :: post)).length) (lb :: (ref ++ rb :: post)) = _
  simp only [List.length_cons, resolveGo, beq_self_eq_true, if_pos,
    collect_complete ref post hrb]
  have hin : ref.isEmpty = false := by
    cases ref with
    | nil => exact absurd rfl hne
    | cons a b => rfl
  simp only [hin, Bool.false_eq_true, if_false]
  rw [resolveGo_eq_resolveStr _ _ _ (by simp; omega)]

theorem splitFirst_sound :
    ∀ s tok l r, splitFirst tok s = some (l, r) → s = l ++ tok ++ r := by
  intro s
  induction s with
  | nil =>
    intro tok l r h
    cases ht : tok.isEmpty with
    | true =>
      have htt : tok = [] := by
        cases tok with | nil => rfl | cons a b => simp at ht
      subst htt
      rw [splitFirst, if_pos ht] at h
      injection h with h'
      injection h' with h₁ h₂
      subst h₁; subst h₂; rfl
    | false =>
      rw [splitFirst, if_neg (by simp [ht])] at h
      exact absurd h (by simp)
  | cons c rest ih =>
    intro tok l r h
    by_cases hp : tok.isPrefixOf (c :: rest)
    · rw [splitFirst, if_pos hp] at h
      injection h with h'
      injection h' with h₁ h₂
      subst h₁; subst h₂
      obtain ⟨t, ht⟩ := List.isPrefixOf_iff_prefix.mp hp
      conv_lhs => rw [← ht]
      rw [← ht]
      simp [List.drop_left]
    · rw [splitFirst, if_neg hp] at h
      cases hsp : splitFirst tok rest with
      | none => rw [hsp] at h; simp at h
      | some p =>
        obtain ⟨l', r'⟩ := p
        rw [hsp] at h
        simp only [Option.map_some'] at h
        injection h with h'
        injection h' with h₁ h₂
        subst h₁; subst h₂
        have := ih tok l' r' hsp
        simp [this]

theorem splitFirst_minimal :
    ∀ s tok l r, splitFirst tok s = some (l, r) →
      ∀ l' r', s = l' ++ tok ++ r' → l.length ≤ l'.length := by
  intro s
  induction s with
  | nil =>
    intro tok l r h l' r' _
    cases ht : tok.isEmpty with
    | true =>
      have htt : tok = [] := by
        cases tok with | nil => rfl | cons a b => simp at ht
      subst htt
      rw [splitFirst, if_pos ht] at h
      injection h with h'
      injection h' with h₁ _
      subst h₁
      simp
    | false =>
      rw [splitFirst, if_neg (by simp [ht])] at h
      exact absurd h (by simp)
  | cons c rest ih =>
    intro tok l r h l' r' hs
    by_cases hp : tok.isPrefixOf (c :: rest)
    · rw [splitFirst, if_pos hp] at h
      injection h with h'
      injection h' with h₁ _
      subst h₁
      simp
    · rw [splitFirst, if_neg hp] at h
      cases hsp : splitFirst tok rest with
      | none => rw [hsp] at h; simp at h
      | some p =>
        obtain ⟨l₀, r₀⟩ := p
        rw [hsp] at h
        simp only [Option.map_some'] at h
        injection h with h'
        injection h' with h₁ h₂
        subst h₁; subst h₂
        cases l' with
        | nil =>
          exfalso
          apply hp
          rw [List.isPrefixOf_iff_prefix]
          exact ⟨r', by simpa using hs.symm⟩
        | cons c' l'' =>
          simp only [List.cons_append, List.cons.injEq] at hs
          have := ih tok l₀ r₀ hsp l'' r' hs.2
          simpa using this

theorem splitFirst_none :
    ∀ s tok, splitFirst tok s = Option.none → ∀ l r, s ≠ l ++ tok ++ r := by
  intro s
  induction s with
  | nil =>
    intro tok h l r hs
    cases ht : tok.isEmpty with
    | true => rw [splitFirst, if_pos ht] at h; simp at h
    | false =>
      cases tok with
      | nil => simp at ht
      | cons a b => cases l <;> simp at hs
  | cons c rest ih =>
    intro tok h l r hs
    by_cases hp : tok.isPrefixOf (c :: rest)
    · rw [splitFirst, if_pos hp] at h; simp at h
    · rw [splitFirst, if_neg hp] at h
      cases l with
      | nil =>
        apply hp
        rw [List.isPrefixOf_iff_prefix]
        exact ⟨r, by simpa using hs.symm⟩
      | cons c' l'' =>
        simp only [List.cons_append, List.cons.injEq] at hs
        cases hsp : splitFirst tok rest with
        | none => exact ih tok hsp l'' r hs.2
        | some p => rw [hsp] at h; simp at h

theorem findOp_none_of_all :
    ∀ ops s, (∀ p ∈ ops, splitFirst p.1 s = Option.none) →
      findOp s ops = Option.none := by
  intro ops
  induction ops with
  | nil => intro s _; rfl
  | cons p rest ih =>
    intro s h
    obtain ⟨tok, op⟩ := p
    have h₀ := h (tok, op) (by simp)
    simp only [findOp, h₀]
    exact ih s (fun q hq => h q (by simp [hq]))

theorem findOp_opToks_sound (s : Str) (op : CmpOp) (l r : Str)
    (h : findOp s opToks = some (op, l, r)) :
    splitFirst (opTok op) s = some (l, r) ∧
      ∀ t ∈ opsBefore op, splitFirst t s = Option.none := by
  simp only [opToks, findOp] at h
  cases h₁ : splitFirst ">=".data s with
  | some p =>
    rw [h₁] at h
    obtain ⟨l₁, r₁⟩ := p
    injection h with h'
    injection h' with ha hb
    injection hb with hb₁ hb₂
    subst ha; subst hb₁; subst hb₂
    exact ⟨h₁, by simp [opsBefore]⟩
  | none =>
    rw [h₁] at h
    cases h₂ : splitFirst "<=".data s with
    | some p =>
      rw [h₂] at h
      obtain ⟨l₁, r₁⟩ := p
      injection h with h'
      injection h' with ha hb
      injection hb with hb₁ hb₂
      subst ha; subst hb₁; subst hb₂
      exact ⟨h₂, by simp [opsBefore, h₁]⟩
    | none =>
      rw [h₂] at h
      cases h₃ : splitFirst "!=".data s with
      | some p =>
        rw [h₃] at h
        obtain ⟨l₁, r₁⟩ := p
        injection h with h'
        injection h' with ha hb
        injection hb with hb₁ hb₂
        subst ha; subst hb₁; subst hb₂
        exact ⟨h₃, by simp [opsBefore, h₁, h₂]⟩
      | none =>
        rw [h₃] at h
        cases h₄ : splitFirst "==".data s with
        | some p =>
          rw [h₄] at h
          obtain ⟨l₁, r₁⟩ := p
          injection h with h'
          injection h' with ha hb
          injection hb with hb₁ hb₂
          subst ha; subst hb₁; subst hb₂
          exact ⟨h₄, by simp [opsBefore, h₁, h₂, h₃]⟩
        | none =>
          rw [h₄] at h
          cases h₅ : splitFirst ">".data s with
          | some p =>
            rw [h₅] at h
            obtain ⟨l₁, r₁⟩ := p
            injection h with h'
            injection h' with ha hb
            injection hb with hb₁ hb₂
            subst ha; subst hb₁; subst hb₂
            exact ⟨h₅, by simp [opsBefore, h₁, h₂, h₃, h₄]⟩
          | none =>
            rw [h₅] at h
            cases h₆ : splitFirst "<".data s with
            | some p =>
              rw [h₆] at h
              obtain ⟨l₁, r₁⟩ := p
              injection h with h'
              injection h' with ha hb
              injection hb with hb₁ hb₂
              subst ha; subst hb₁; subst hb₂
              exact ⟨h₆, by simp [opsBefore, h₁, h₂, h₃, h₄, h₅]⟩
            | none => rw [h₆] at h; exact absurd h (by simp)

/-- Template resolution of a dict rewrites values in place and never
touches keys. -/
theorem stepPayload_keys (s : Dict) (ctx : Dict) :
    (stepPayload s ctx).map Prod.fst = s.map Prod.fst := by
  induction s with
  | nil => rfl
  | cons kv t ih =>
    obtain ⟨k, v⟩ := kv
    simp [stepPayload, applyTemplatesEntries] at ih ⊢
    exact ih

theorem dictGet_stepPayload (s : Dict) (ctx : Dict) (k : Val) :
    dictGet (stepPayload s ctx) k = (dictGet s k).map (applyTemplatesVal ctx) := by
  induction s with
  | nil => rfl
  | cons kv t ih =>
    obtain ⟨k₀, v₀⟩ := kv
    by_cases hk : valBeq k₀ k = true
    · simp [stepPayload, applyTemplatesEntries, dictGet, hk]
    · simp only [stepPayload, applyTemplatesEntries, dictGet, hk] at ih ⊢
      simpa using ih

/-- Running the loop over a concatenation: run the first part; if it is
still running, continue with the second part at the advanced index. -/
theorem seqLoop_append (exec : Dict → Dict) :
    ∀ l₁ l₂ i ctx res,
      seqLoop exec (l₁ ++ l₂) i ctx res =
        match seqLoop exec l₁ i ctx res with
        | .running ctx' res' => seqLoop exec l₂ (i + l₁.length) ctx' res'
        | out => out := by
  intro l₁
  induction l₁ with
  | nil => intro l₂ i ctx res; simp [seqLoop]
  | cons v rest ih =>
    intro l₂ i ctx res
    simp only [List.cons_append, seqLoop]
    cases pyDict v with
    | none => rfl
    | some raw₀ =>
      simp only
      cases dictGet raw₀ ifK with
      | some condV =>
        simp only
        cases dictGet raw₀ (.str (if eval_condition condV ctx then "then".data
            else "else".data)) with
        | none =>
          dsimp only
          rw [List.append_eq, ih]
          have hn : i + 1 + rest.length = i + (rest.length + 1) := by omega
          rw [hn, List.length_cons]
        | some bv =>
          simp only
          cases pyDict bv with
          | none => rfl
          | some bd =>
            simp only
            cases actionOut exec bd i ctx with
            | crash => rfl
            | abort e n err ctx' => rfl
            | next e ctx' =>
              dsimp only
              rw [List.append_eq, ih]
              have hn : i + 1 + rest.length = i + (rest.length + 1) := by omega
              rw [hn, List.length_cons]
      | none =>
        simp only
        cases actionOut exec raw₀ i ctx with
        | crash => rfl
        | abort e n err ctx' => rfl
        | next e ctx' =>
          dsimp only
          rw [List.append_eq, ih]
          have hn : i + 1 + rest.length = i + (rest.length + 1) := by omega
          rw [hn, List.length_cons]

/-- With a contract-abiding executor, the engine's falsy-success test and
the spec's `success`-flag-is-`false` test agree step by step. -/
theorem specActionCheck_cases (exec : Dict → Dict) (hex : GoodExec exec)
    (bd : Dict) (i : Nat) (ctx : Dict) :
    (actionOut exec bd i ctx = .crash ∧ specActionCheck exec bd i ctx = .crash)
    ∨ (∃ n e entry ctx', actionOut exec bd i ctx = .abort entry n e ctx' ∧
        specActionCheck exec bd i ctx = .failStop n e)
    ∨ (∃ entry ctx', actionOut exec bd i ctx = .next entry ctx' ∧
        specActionCheck exec bd i ctx = .next ctx') := by
  obtain ⟨b, hb⟩ := hex (stepPayload bd ctx)
  simp only [actionOut, specActionCheck]
  by_cases hh : pyHashable ((dictGet bd asK).getD (.str (defaultName i)))
  · rw [if_pos hh, if_pos hh]
    rw [hb]
    have hflag :
        (match some (Val.bool b) with
          | some (.bool false) => true
          | _ => false) = !b := by
      cases b <;> rfl
    rw [hflag]
    have htr : pyTruthyOpt (some (Val.bool b)) = b := rfl
    rw [htr]
    by_cases hcond : (!b && onErrNeCont (dictGet bd onErrK)) = true
    · rw [if_pos hcond, if_pos hcond]
      right; left
      exact ⟨_, _, _, _, rfl, rfl⟩
    · rw [if_neg hcond, if_neg hcond]
      right; right
      exact ⟨_, _, rfl, rfl⟩
  · rw [if_neg hh, if_neg hh]
    left
    exact ⟨rfl, rfl⟩

/-- The spec-side abort report coincides with the loop's outcome (it is
insensitive to the accumulated log). -/
theorem specAbortInfo_eq_loopOutcome (exec : Dict → Dict) (hex : GoodExec exec) :
    ∀ steps i ctx res,
      specAbortInfo exec steps i ctx = loopOutcome (seqLoop exec steps i ctx res) := by
  intro steps
  induction steps with
  | nil => intro i ctx res; rfl
  | cons rawV rest ih =>
    intro i ctx res
    simp only [specAbortInfo, seqLoop]
    cases pyDict rawV with
    | none => rfl
    | some raw₀ =>
      dsimp only
      cases dictGet raw₀ ifK with
      | some condV =>
        dsimp only
        cases hbr : dictGet raw₀ (.str (if eval_condition condV ctx then "then".data
            else "else".data)) with
        | none => exact ih (i + 1) ctx _
        | some bv =>
          dsimp only
          cases pyDict bv with
          | none => rfl
          | some bd =>
            dsimp only
            rcases specActionCheck_cases exec hex bd i ctx with
              ⟨h₁, h₂⟩ | ⟨n, e, entry, ctx', h₁, h₂⟩ | ⟨entry, ctx', h₁, h₂⟩
            · rw [h₁, h₂]; rfl
            · rw [h₁, h₂]; rfl
            · rw [h₁, h₂]
              exact ih (i + 1) ctx' _
      | none =>
        dsimp only
        rcases specActionCheck_cases exec hex raw₀ i ctx with
          ⟨h₁, h₂⟩ | ⟨n, e, entry, ctx', h₁, h₂⟩ | ⟨entry, ctx', h₁, h₂⟩
        · rw [h₁, h₂]; rfl
        · rw [h₁, h₂]; rfl
        · rw [h₁, h₂]
          exact ih (i + 1) ctx' _

/-- An abort at index `j` happens within the first `j - i + 1` steps of the
remaining list: the steps after the aborting one are never consulted. -/
theorem seqLoop_abort_take (exec : Dict → Dict) :
    ∀ steps i ctx res ctx' res' j n e,
      seqLoop exec steps i ctx res = .aborted ctx' res' j n e →
      i ≤ j ∧ j - i < steps.length ∧
        seqLoop exec (steps.take (j - i + 1)) i ctx res = .aborted ctx' res' j n e := by
  intro steps
  induction steps with
  | nil => intro i ctx res ctx' res' j n e h; exact absurd h (by simp [seqLoop])
  | cons rawV rest ih =>
    intro i ctx res ctx' res' j n e h
    rw [seqLoop] at h
    cases hpd : pyDict rawV with
    | none => rw [hpd] at h; exact absurd h (by simp)
    | some raw₀ =>
      rw [hpd] at h
      dsimp only at h
      cases hif : dictGet raw₀ ifK with
      | some condV =>
        rw [hif] at h
        dsimp only at h
        cases hbr : dictGet raw₀ (.str (if eval_condition condV ctx then "then".data
            else "else".data)) with
        | none =>
          rw [hbr] at h
          dsimp only at h
          obtain ⟨hij, hlen, htake⟩ := ih (i + 1) ctx _ ctx' res' j n e h
          refine ⟨by omega, by simp; omega, ?_⟩
          have hji : j - i + 1 = (j - (i + 1) + 1) + 1 := by omega
          rw [hji, List.take_succ_cons, seqLoop, hpd]
          dsimp only
          rw [hif]
          dsimp only
          rw [hbr]
          dsimp only
          exact htake
        | some bv =>
          rw [hbr] at h
          dsimp only at h
          cases hbd : pyDict bv with
          | none => rw [hbd] at h; exact absurd h (by simp)
          | some bd =>
            rw [hbd] at h
            dsimp only at h
            cases hact : actionOut exec bd i ctx with
            | crash => rw [hact] at h; exact absurd h (by simp)
            | abort e₀ n₀ err₀ ctx₀ =>
              rw [hact] at h
              dsimp only at h
              injection h with hc hr hj hn he
              subst hc; subst hr; subst hj; subst hn; subst he
              refine ⟨le_rfl, by simp, ?_⟩
              have : i - i + 1 = 1 := by omega
              rw [this, List.take_succ_cons, List.take_zero, seqLoop, hpd]
              dsimp only
              rw [hif]
              dsimp only
              rw [hbr]
              dsimp only
              rw [hbd]
              dsimp only
              rw [hact]
            | next e₀ ctx₀ =>
              rw [hact] at h
              dsimp only at h
              obtain ⟨hij, hlen, htake⟩ := ih (i + 1) ctx₀ _ ctx' res' j n e h
              refine ⟨by omega, by simp; omega, ?_⟩
              have hji : j - i + 1 = (j - (i + 1) + 1) + 1 := by omega
              rw [hji, List.take_succ_cons, seqLoop, hpd]
              dsimp only
              rw [hif]
              dsimp only
              rw [hbr]
              dsimp only
              rw [hbd]
              dsimp only
              rw [hact]
              dsimp only
              exact htake
      | none =>
        rw [hif] at h
        dsimp only at h
        cases hact : actionOut exec raw₀ i ctx with
        | crash => rw [hact] at h; exact absurd h (by simp)
        | abort e₀ n₀ err₀ ctx₀ =>
          rw [hact] at h
          dsimp only at h
          injection h with hc hr hj hn he
          subst hc; subst hr; subst hj; subst hn; subst he
          refine ⟨le_rfl, by simp, ?_⟩
          have : i - i + 1 = 1 := by omega
          rw [this, List.take_succ_cons, List.take_zero, seqLoop, hpd]
          dsimp only
          rw [hif]
          dsimp only
          rw [hact]
        | next e₀ ctx₀ =>
          rw [hact] at h
          dsimp only at h
          obtain ⟨hij, hlen, htake⟩ := ih (i + 1) ctx₀ _ ctx' res' j n e h
          refine ⟨by omega, by simp; omega, ?_⟩
          have hji : j - i + 1 = (j - (i + 1) + 1) + 1 := by omega
          rw [hji, List.take_succ_cons, seqLoop, hpd]
          dsimp only
          rw [hif]
          dsimp only
          rw [hact]
          dsimp only
          exact htake

/-- Every executed action's log entry is tagged with its index. -/
theorem actionOut_entry_step (exec : Dict → Dict) (bd : Dict) (i : Nat) (ctx : Dict) :
    (∀ e n err c', actionOut exec bd i ctx = .abort e n err c' →
        dictGet e stepK = some (.int (i : Int)))
    ∧ (∀ e c', actionOut exec bd i ctx = .next e c' →
        dictGet e stepK = some (.int (i : Int))) := by
  simp only [actionOut]
  by_cases hh : pyHashable ((dictGet bd asK).getD (.str (defaultName i)))
  · rw [if_pos hh]
    by_cases hcond : (!(pyTruthyOpt (dictGet (exec (stepPayload bd ctx)) succK))
        && onErrNeCont (dictGet bd onErrK)) = true
    · rw [if_pos hcond]
      constructor
      · intro e n err c' h
        injection h with he _ _ _
        rw [← he]
        exact dictGet_mergeEntry_step _ _ _
      · intro e c' h
        exact absurd h (by simp)
    · rw [if_neg hcond]
      constructor
      · intro e n err c' h
        exact absurd h (by simp)
      · intro e c' h
        injection h with he _
        rw [← he]
        exact dictGet_mergeEntry_step _ _ _
  · rw [if_neg hh]
    constructor
    · intro e n err c' h
      exact absurd h (by simp)
    · intro e c' h
      exact absurd h (by simp)

/-- On an abort the final log extends the accumulated one and carries an
entry (tagged with its index) for every index attempted up to and
including the aborting one. -/
theorem seqLoop_abort_cov (exec : Dict → Dict) :
    ∀ steps i ctx res ctx' res' j n e,
      seqLoop exec steps i ctx res = .aborted ctx' res' j n e →
      (∀ d ∈ res, d ∈ res') ∧
      ∀ m, i ≤ m → m ≤ j → ∃ d, d ∈ res' ∧ dictGet d stepK = some (.int (m : Int)) := by
  intro steps
  induction steps with
  | nil => intro i ctx res ctx' res' j n e h; exact absurd h (by simp [seqLoop])
  | cons rawV rest ih =>
    intro i ctx res ctx' res' j n e h
    rw [seqLoop] at h
    cases hpd : pyDict rawV with
    | none => rw [hpd] at h; exact absurd h (by simp)
    | some raw₀ =>
      rw [hpd] at h
      dsimp only at h
      cases hif : dictGet raw₀ ifK with
      | some condV =>
        rw [hif] at h
        dsimp only at h
        cases hbr : dictGet raw₀ (.str (if eval_condition condV ctx then "then".data
            else "else".data)) with
        | none =>
          rw [hbr] at h
          dsimp only at h
          obtain ⟨hsub, hcov⟩ := ih (i + 1) ctx _ ctx' res' j n e h
          constructor
          · intro d hd
            exact hsub d (by simp [hd])
          · intro m him hmj
            rcases Nat.eq_or_lt_of_le him with hmi | hmi
            · refine ⟨condEntry i condV (eval_condition condV ctx) "none".data, ?_, ?_⟩
              · apply hsub
                simp [pyTruthyOpt]
              · rw [← hmi]
                exact dictGet_condEntry_step _ _ _ _
            · exact hcov m (by omega) hmj
        | some bv =>
          rw [hbr] at h
          dsimp only at h
          cases hbd : pyDict bv with
          | none => rw [hbd] at h; exact absurd h (by simp)
          | some bd =>
            rw [hbd] at h
            dsimp only at h
            cases hact : actionOut exec bd i ctx with
            | crash => rw [hact] at h; exact absurd h (by simp)
            | abort e₀ n₀ err₀ ctx₀ =>
              rw [hact] at h
              dsimp only at h
              injection h with hc hr hj hn he
              subst hc; subst hr; subst hj; subst hn; subst he
              constructor
              · intro d hd; simp [hd]
              · intro m him hmj
                have hmi : m = i := by omega
                subst hmi
                refine ⟨e₀, by simp, ?_⟩
                exact (actionOut_entry_step exec bd m ctx).1 e₀ n₀ err₀ ctx₀ hact
            | next e₀ ctx₀ =>
              rw [hact] at h
              dsimp only at h
              obtain ⟨hsub, hcov⟩ := ih (i + 1) ctx₀ _ ctx' res' j n e h
              constructor
              · intro d hd
                exact hsub d (by simp [hd])
              · intro m him hmj
                rcases Nat.eq_or_lt_of_le him with hmi | hmi
                · refine ⟨e₀, ?_, ?_⟩
                  · apply hsub; simp
                  · rw [← hmi]
                    exact (actionOut_entry_step exec bd i ctx).2 e₀ ctx₀ hact
                · exact hcov m (by omega) hmj
      | none =>
        rw [hif] at h
        dsimp only at h
        cases hact : actionOut exec raw₀ i ctx with
        | crash => rw [hact] at h; exact absurd h (by simp)
        | abort e₀ n₀ err₀ ctx₀ =>
          rw [hact] at h
          dsimp only at h
          injection h with hc hr hj hn he
          subst hc; subst hr; subst hj; subst hn; subst he
          constructor
          · intro d hd; simp [hd]
          · intro m him hmj
            have hmi : m = i := by omega
            subst hmi
            refine ⟨e₀, by simp, ?_⟩
            exact (actionOut_entry_step exec raw₀ m ctx).1 e₀ n₀ err₀ ctx₀ hact
        | next e₀ ctx₀ =>
          rw [hact] at h
          dsimp only at h
          obtain ⟨hsub, hcov⟩ := ih (i + 1) ctx₀ _ ctx' res' j n e h
          constructor
          · intro d hd
            exact hsub d (by simp [hd])
          · intro m him hmj
            rcases Nat.eq_or_lt_of_le him with hmi | hmi
            · refine ⟨e₀, ?_, ?_⟩
              · apply hsub; simp
              · rw [← hmi]
                exact (actionOut_entry_step exec raw₀ i ctx).2 e₀ ctx₀ hact
            · exact hcov m (by omega) hmj

/-- Without an explicit `as`, an executed action is named by its positional
default and the context update is a `dictSet` at that default name. -/
theorem actionOut_noAs_ctx (exec : Dict → Dict) (bd : Dict) (i : Nat) (ctx : Dict)
    (hAs : dictGet bd asK = Option.none) :
    (∃ e n err v, actionOut exec bd i ctx =
        .abort e n err (dictSet ctx (.str (defaultName i)) v))
    ∨ (∃ e v, actionOut exec bd i ctx =
        .next e (dictSet ctx (.str (defaultName i)) v)) := by
  simp only [actionOut, hAs, Option.getD]
  rw [if_pos (show pyHashable (.str (defaultName i)) = true from rfl)]
  by_cases hcond : (!(pyTruthyOpt (dictGet (exec (stepPayload bd ctx)) succK))
      && onErrNeCont (dictGet bd onErrK)) = true
  · rw [if_pos hcond]
    left
    exact ⟨_, _, _, _, rfl⟩
  · rw [if_neg hcond]
    right
    exact ⟨_, _, rfl⟩

/-- A positional default name not yet present in the context is fresh, so
writing it appends. -/
theorem dictSet_defaultName_append (ctx : Dict) (i : Nat) (v : Val)
    (hkeys : ∀ k ∈ ctx.map Prod.fst, ∃ j, j < i ∧ k = Val.str (defaultName j)) :
    dictSet ctx (.str (defaultName i)) v = ctx ++ [(.str (defaultName i), v)] := by
  apply dictSet_fresh
  intro kv hkv
  obtain ⟨j, hj, hk⟩ := hkeys kv.1 (List.mem_map_of_mem _ hkv)
  rw [hk, valBeq_str_str]
  exact beq_eq_false_iff_ne.mpr (fun hEq => absurd (defaultName_inj hEq) (by omega))

/-- When no step (nor branch) carries `as`, the context only ever grows by
appending fresh positional-default keys: the starting context is a prefix
of every later one, all keys are positional defaults below the step bound,
and key distinctness is preserved. -/
theorem seqLoop_ctx_mono (exec : Dict → Dict) :
    ∀ steps i ctx res ctx',
      noAsSteps steps = true →
      (∀ k ∈ ctx.map Prod.fst, ∃ j, j < i ∧ k = Val.str (defaultName j)) →
      loopCtx (seqLoop exec steps i ctx res) = some ctx' →
      (ctx <+: ctx') ∧
      (∀ k ∈ ctx'.map Prod.fst, ∃ j, j < i + steps.length ∧ k = Val.str (defaultName j)) ∧
      ((ctx.map Prod.fst).Nodup → (ctx'.map Prod.fst).Nodup) := by
  intro steps
  induction steps with
  | nil =>
    intro i ctx res ctx' _ hkeys h
    simp only [seqLoop, loopCtx] at h
    injection h with h
    subst h
    exact ⟨List.prefix_refl _, fun k hk => by
      obtain ⟨j, hj, hkk⟩ := hkeys k hk
      exact ⟨j, by omega, hkk⟩, fun hnd => hnd⟩
  | cons rawV rest ih =>
    intro i ctx res ctx' hno hkeys h
    have hno' : noAsStep rawV = true ∧ noAsSteps rest = true := by
      simpa [noAsSteps, List.all_cons] using hno
    rw [seqLoop] at h
    cases hpd : pyDict rawV with
    | none => rw [hpd] at h; simp [loopCtx] at h
    | some raw₀ =>
      rw [hpd] at h
      dsimp only at h
      have hnostep := hno'.1
      rw [noAsStep, hpd] at hnostep
      simp only [Bool.and_eq_true] at hnostep
      cases hif : dictGet raw₀ ifK with
      | some condV =>
        rw [hif] at h
        dsimp only at h
        cases hbr : dictGet raw₀ (.str (if eval_condition condV ctx then "then".data
            else "else".data)) with
        | none =>
          rw [hbr] at h
          dsimp only at h
          obtain ⟨hpre, hbound, hnd⟩ := ih (i + 1) ctx _ ctx' hno'.2
            (fun k hk => by
              obtain ⟨j, hj, hkk⟩ := hkeys k hk
              exact ⟨j, by omega, hkk⟩) h
          refine ⟨hpre, fun k hk => ?_, hnd⟩
          obtain ⟨j, hj, hkk⟩ := hbound k hk
          exact ⟨j, by simp only [List.length_cons] at hj ⊢; omega, hkk⟩
        | some bv =>
          rw [hbr] at h
          dsimp only at h
          cases hbd : pyDict bv with
          | none => rw [hbd] at h; simp [loopCtx] at h
          | some bd =>
            rw [hbd] at h
            dsimp only at h
            have hbv : bv = .dict bd := by
              cases bv with
              | dict d =>
                simp only [pyDict] at hbd
                injection hbd with h'
                rw [h']
              | str s => simp [pyDict] at hbd
              | int n => simp [pyDict] at hbd
              | bool b => simp [pyDict] at hbd
              | none => simp [pyDict] at hbd
              | list l => simp [pyDict] at hbd
            have hAs : dictGet bd asK = Option.none := by
              subst hbv
              rcases Bool.eq_false_or_eq_true (eval_condition condV ctx) with hcm | hcm
              · rw [hcm] at hbr
                simp at hbr
                have h₂ := hnostep.1.2
                rw [hbr] at h₂
                simpa [Option.isNone_iff_eq_none] using h₂
              · rw [hcm] at hbr
                simp at hbr
                have h₂ := hnostep.2
                rw [hbr] at h₂
                simpa [Option.isNone_iff_eq_none] using h₂
            rcases actionOut_noAs_ctx exec bd i ctx hAs with
              ⟨e₀, n₀, err₀, v₀, hact⟩ | ⟨e₀, v₀, hact⟩
            · rw [hact] at h
              dsimp only [loopCtx] at h
              injection h with h
              subst h
              rw [dictSet_defaultName_append ctx i v₀ hkeys]
              refine ⟨⟨_, rfl⟩, fun k hk => ?_, fun hnd => ?_⟩
              · simp only [List.map_append, List.mem_append, List.map_cons,
                  List.map_nil, List.mem_singleton] at hk
                rcases hk with hk | hk
                · obtain ⟨j, hj, hkk⟩ := hkeys k hk
                  exact ⟨j, by simp only [List.length_cons]; omega, hkk⟩
                · exact ⟨i, by simp only [List.length_cons]; omega, hk⟩
              · simp only [List.map_append, List.map_cons, List.map_nil]
                rw [List.nodup_append]
                refine ⟨hnd, List.nodup_singleton _, ?_⟩
                intro k hk hk'
                simp only [List.mem_singleton] at hk'
                obtain ⟨j, hj, hkk⟩ := hkeys k hk
                rw [hkk] at hk'
                have := defaultName_inj (Val.str.inj hk')
                omega
            · rw [hact] at h
              dsimp only at h
              rw [dictSet_defaultName_append ctx i v₀ hkeys] at h
              obtain ⟨hpre, hbound, hnd⟩ := ih (i + 1) (ctx ++ [(.str (defaultName i), v₀)]) _
                ctx' hno'.2
                (fun k hk => by
                  simp only [List.map_append, List.mem_append, List.map_cons,
                    List.map_nil, List.mem_singleton] at hk
                  rcases hk with hk | hk
                  · obtain ⟨j, hj, hkk⟩ := hkeys k hk
                    exact ⟨j, by omega, hkk⟩
                  · exact ⟨i, by omega, hk⟩) h
              refine ⟨List.IsPrefix.trans ⟨_, rfl⟩ hpre, fun k hk => ?_, fun hnd₀ => ?_⟩
              · obtain ⟨j, hj, hkk⟩ := hbound k hk
                exact ⟨j, by simp only [List.length_cons] at hj ⊢; omega, hkk⟩
              · apply hnd
                simp only [List.map_append, List.map_cons, List.map_nil]
                rw [List.nodup_append]
                refine ⟨hnd₀, List.nodup_singleton _, ?_⟩
                intro k hk hk'
                simp only [List.mem_singleton] at hk'
                obtain ⟨j, hj, hkk⟩ := hkeys k hk
                rw [hkk] at hk'
                have := defaultName_inj (Val.str.inj hk')
                omega
      | none =>
        rw [hif] at h
        dsimp only at h
        have hAs : dictGet raw₀ asK = Option.none := by
          simpa [Option.isNone_iff_eq_none] using hnostep.1.1
        rcases actionOut_noAs_ctx exec raw₀ i ctx hAs with
          ⟨e₀, n₀, err₀, v₀, hact⟩ | ⟨e₀, v₀, hact⟩
        · rw [hact] at h
          dsimp only [loopCtx] at h
          injection h with h
          subst h
          rw [dictSet_defaultName_append ctx i v₀ hkeys]
          refine ⟨⟨_, rfl⟩, fun k hk => ?_, fun hnd => ?_⟩
          · simp only [List.map_append, List.mem_append, List.map_cons,
              List.map_nil, List.mem_singleton] at hk
            rcases hk with hk | hk
            · obtain ⟨j, hj, hkk⟩ := hkeys k hk
              exact ⟨j, by simp only [List.length_cons]; omega, hkk⟩
            · exact ⟨i, by simp only [List.length_cons]; omega, hk⟩
          · simp only [List.map_append, List.map_cons, List.map_nil]
            rw [List.nodup_append]
            refine ⟨hnd, List.nodup_singleton _, ?_⟩
            intro k hk hk'
            simp only [List.mem_singleton] at hk'
            obtain ⟨j, hj, hkk⟩ := hkeys k hk
            rw [hkk] at hk'
            have := defaultName_inj (Val.str.inj hk')
            omega
        · rw [hact] at h
          dsimp only at h
          rw [dictSet_defaultName_append ctx i v₀ hkeys] at h
          obtain ⟨hpre, hbound, hnd⟩ := ih (i + 1) (ctx ++ [(.str (defaultName i), v₀)]) _
            ctx' hno'.2
            (fun k hk => by
              simp only [List.map_append, List.mem_append, List.map_cons,
                List.map_nil, List.mem_singleton] at hk
              rcases hk with hk | hk
              · obtain ⟨j, hj, hkk⟩ := hkeys k hk
                exact ⟨j, by omega, hkk⟩
              · exact ⟨i, by omega, hk⟩) h
          refine ⟨List.IsPrefix.trans ⟨_, rfl⟩ hpre, fun k hk => ?_, fun hnd₀ => ?_⟩
          · obtain ⟨j, hj, hkk⟩ := hbound k hk
            exact ⟨j, by simp only [List.length_cons] at hj ⊢; omega, hkk⟩
          · apply hnd
            simp only [List.map_append, List.map_cons, List.map_nil]
            rw [List.nodup_append]
            refine ⟨hnd₀, List.nodup_singleton _, ?_⟩
            intro k hk hk'
            simp only [List.mem_singleton] at hk'
            obtain ⟨j, hj, hkk⟩ := hkeys k hk
            rw [hkk] at hk'
            have := defaultName_inj (Val.str.inj hk')
            omega

/-! ## Claims -/

/-- C10: calling `sequence` directly with an empty step list returns overall
success true, step count 0 and an empty results log; the rejection of an
empty or non-list `steps` value happens only in the CLI dispatcher
(`dispatch`'s `sequence` branch) before the controller is entered, not in
`sequence` itself. -/
theorem claim10_empty_sequence_ok (exec : Dict → Dict) (payload : Dict)
    (h : ∀ l, dictGet payload stepsK = some (.list l) → l = []) :
    sequence exec [] = some [(succK, .bool true), (runK, .int 0), (resK, .list [])]
    ∧ dispatchSequence exec payload = some seqReqErr := by
  constructor
  · rfl
  · unfold dispatchSequence
    cases hs : dictGet payload stepsK with
    | none => rfl
    | some v =>
      cases v with
      | list l =>
        have hl := h l hs
        subst hl
        rfl
      | str s => rfl
      | int n => rfl
      | bool b => rfl
      | none => rfl
      | dict d => rfl

/-- Witness for C10 at a concrete executor and a payload whose `steps` is
the empty list. -/
theorem claim10_witness :
    sequence (fun _ => []) [] = some [(succK, .bool true), (runK, .int 0), (resK, .list [])]
    ∧ dispatchSequence (fun _ => []) [(stepsK, .list [])] = some seqReqErr :=
  claim10_empty_sequence_ok (fun _ => []) [(stepsK, .list [])]
    (fun _ hl => (Val.list.inj (Option.some.inj hl)).symm)

/-- C7: a conditional step whose selected branch is absent records a
condition log entry with `branch_taken = "none"`, executes no action, adds
nothing to the context, and the run simply continues with the next step at
the same context — so this case never causes the run to fail. -/
theorem claim7_absent_branch_skips (exec : Dict → Dict) (s : Dict) (rest : List Val)
    (i : Nat) (ctx : Dict) (res : List Dict) (c : Val) (cm : Bool)
    (hif : dictGet s ifK = some c) (hcm : eval_condition c ctx = cm)
    (hbr : dictGet s (.str (if cm then "then".data else "else".data)) = Option.none) :
    seqLoop exec (.dict s :: rest) i ctx res =
      seqLoop exec rest (i + 1) ctx (res ++ [condEntry i c cm "none".data]) := by
  subst hcm
  rw [seqLoop]
  dsimp only [pyDict]
  rw [hif]
  dsimp only
  rw [hbr]
  rfl

/-- Witness for C7: a conditional with condition `"0"` and no `else`. -/
theorem claim7_witness :
    seqLoop (fun _ => []) [.dict [(ifK, .str "0".data)]] 0 [] [] =
      seqLoop (fun _ => []) [] 1 [] ([] ++ [condEntry 0 (.str "0".data) false "none".data]) :=
  claim7_absent_branch_skips (fun _ => []) [(ifK, .str "0".data)] [] 0 [] []
    (.str "0".data) false rfl rfl rfl

/-- C9: with no operator token anywhere in the resolved text, the evaluator
returns false exactly when the trimmed, lower-cased text is one of
`"false"`, `"0"`, `"none"`, `""`, `"null"`, and true otherwise. -/
theorem claim9_truthiness (cond : Val) (ctx : Dict)
    (h : ∀ p ∈ opToks, splitFirst p.1 (resolveStr (pyStr cond) ctx) = Option.none) :
    (eval_condition cond ctx = false ↔
      lowerStr (pyStrip (resolveStr (pyStr cond) ctx)) ∈ falsyStrs) := by
  have hf := findOp_none_of_all opToks (resolveStr (pyStr cond) ctx) h
  unfold eval_condition
  simp only [hf]
  constructor
  · intro he
    refine List.elem_iff.mp ?_
    cases hx : falsyStrs.contains (lowerStr (pyStrip (resolveStr (pyStr cond) ctx))) with
    | true => exact hx
    | false => rw [hx] at he; simp at he
  · intro hm
    have hc : falsyStrs.contains (lowerStr (pyStrip (resolveStr (pyStr cond) ctx))) = true :=
      List.elem_iff.mpr hm
    rw [hc]
    rfl

/-- Witness for C9: `"ready"` has no operator token and is truthy. -/
theorem claim9_witness :
    eval_condition (.str "ready".data) [] = false ↔
      lowerStr (pyStrip (resolveStr (pyStr (.str "ready".data)) [])) ∈ falsyStrs :=
  claim9_truthiness (.str "ready".data) [] (by decide)

/-- Counterexample to C2 as stated: in `"abc > abc"` the operand `"abc"`
fails numeric parsing, yet the ordering comparison evaluates to `true`
(the claim demands `false` for ordering operators with non-numeric
operands): the `except ValueError` fallback returns trimmed string
equality for every operator. -/
theorem claim2_counterexample :
    pyParseFloat (pyStrip "abc ".data) = Option.none
    ∧ eval_condition (.str "abc > abc".data) [] = true := by
  constructor
  · rfl
  · rfl

/-- C2 (amended): when a comparison operator splits the resolved
expression and at least one trimmed operand fails to parse as a Python
float, the result — for every one of the six operators, `==`, `!=`, `>`,
`<`, `>=` and `<=` alike — is exact string equality of the
whitespace-trimmed operands. -/
theorem claim2_amended (cond : Val) (ctx : Dict) (op : CmpOp) (l r : Str)
    (hfind : findOp (resolveStr (pyStr cond) ctx) opToks = some (op, l, r))
    (hfail : pyParseFloat (pyStrip l) = Option.none ∨
      pyParseFloat (pyStrip r) = Option.none) :
    eval_condition cond ctx = (pyStrip l == pyStrip r) := by
  unfold eval_condition
  simp only [hfind]
  rcases hfail with hl | hr
  · rw [hl]
  · rw [hr]
    cases pyParseFloat (pyStrip l) <;> rfl

/-- Witness for C2 (amended): `"a != b"` falls back to string equality of
`"a"` and `"b"`, i.e. evaluates to `false`. -/
theorem claim2_witness :
    eval_condition (.str "a != b".data) [] = (pyStrip "a ".data == pyStrip " b".data) :=
  claim2_amended (.str "a != b".data) [] .ne "a ".data " b".data rfl (Or.inl rfl)

/-- C8: the evaluator splits the resolved expression on the
highest-priority operator token occurring anywhere in it (priority order
`>=`, `<=`, `!=`, `==`, `>`, `<`), at that token's first occurrence: the
returned operands reassemble to the input, the left operand is the
shortest possible (first occurrence), and no higher-priority token occurs
anywhere in the text. -/
theorem claim8_operator_split (s : Str) (op : CmpOp) (l r : Str)
    (h : findOp s opToks = some (op, l, r)) :
    s = l ++ opTok op ++ r
    ∧ (∀ l' r', s = l' ++ opTok op ++ r' → l.length ≤ l'.length)
    ∧ (∀ t ∈ opsBefore op, ∀ l' r', s ≠ l' ++ t ++ r') := by
  obtain ⟨hsp, hprior⟩ := findOp_opToks_sound s op l r h
  refine ⟨splitFirst_sound s (opTok op) l r hsp, ?_, ?_⟩
  · intro l' r' hs
    exact splitFirst_minimal s (opTok op) l r hsp l' r' hs
  · intro t ht l' r'
    exact splitFirst_none s t (hprior t ht) l' r'

/-- Witness for C8: in `"a<b>=c"` the `>=` token wins over the earlier
`<`, splitting into `"a<b"` and `"c"`. -/
theorem claim8_witness :
    "a<b>=c".data = "a<b".data ++ opTok .ge ++ "c".data
    ∧ (∀ l' r', "a<b>=c".data = l' ++ opTok .ge ++ r' → "a<b".data.length ≤ l'.length)
    ∧ (∀ t ∈ opsBefore .ge, ∀ l' r', "a<b>=c".data ≠ l' ++ t ++ r') :=
  claim8_operator_split "a<b>=c".data .ge "a<b".data "c".data rfl

/-- Counterexample to C4 as stated: for a dotted reference whose context
entry exists but is not a dict (here `"a"` maps to the string `"5"`), the
placeholder is *replaced* by the stringified entry value instead of being
left verbatim as the claim demands. -/
theorem claim4_counterexample :
    dictGet [((Val.str "a".data : Val), (Val.str "5".data : Val))] (.str "a".data)
        = some (.str "5".data)
    ∧ resolveStr (lb :: "a.b".data ++ [rb]) [(.str "a".data, .str "5".data)] = "5".data
    ∧ resolveStr (lb :: "a.b".data ++ [rb]) [(.str "a".data, .str "5".data)]
        ≠ lb :: "a.b".data ++ [rb] :=
  ⟨rfl, rfl, by decide⟩

/-- C4 (amended): a placeholder `{ref}` (preceded by brace-free text) is
rewritten via `replacer`, which (a) leaves the placeholder verbatim when
the dotted entry is missing, when the entry is a dict missing the field,
or when a dotless name is missing; (b) substitutes the stringified field
value when the entry is a dict exposing the field; and (c) — unlike the
claim — substitutes the stringified *entry* value when the dotted entry
exists but is not a dict. -/
theorem claim4_amended (pre ref post : Str) (ctx : Dict)
    (h₁ : lb ∉ pre) (h₂ : ref ≠ []) (h₃ : rb ∉ ref) :
    resolveStr (pre ++ lb :: ref ++ rb :: post) ctx
        = pre ++ replacer ref ctx ++ resolveStr post ctx
    ∧ (∀ p₀ p₁, splitFirst ".".data ref = some (p₀, p₁) →
        dictGet ctx (.str p₀) = Option.none → replacer ref ctx = lb :: ref ++ [rb])
    ∧ (∀ p₀ p₁ d, splitFirst ".".data ref = some (p₀, p₁) →
        dictGet ctx (.str p₀) = some (.dict d) → dictGet d (.str p₁) = Option.none →
        replacer ref ctx = lb :: ref ++ [rb])
    ∧ (∀ p₀ p₁ d fv, splitFirst ".".data ref = some (p₀, p₁) →
        dictGet ctx (.str p₀) = some (.dict d) → dictGet d (.str p₁) = some fv →
        replacer ref ctx = pyStr fv)
    ∧ (∀ p₀ p₁ v, splitFirst ".".data ref = some (p₀, p₁) →
        dictGet ctx (.str p₀) = some v → (∀ d, v ≠ .dict d) →
        replacer ref ctx = pyStr v)
    ∧ (splitFirst ".".data ref = Option.none →
        dictGet ctx (.str ref) = Option.none → replacer ref ctx = lb :: ref ++ [rb])
    ∧ (∀ v, splitFirst ".".data ref = Option.none →
        dictGet ctx (.str ref) = some v → replacer ref ctx = pyStr v) := by
  refine ⟨?_, ?_, ?_, ?_, ?_, ?_, ?_⟩
  · rw [List.append_assoc, resolveStr_append_of_no_lb pre ((lb :: ref) ++ rb :: post) ctx h₁,
      resolveStr_placeholder_head ref post ctx h₂ h₃, List.append_assoc]
  · intro p₀ p₁ hsp hget
    simp [replacer, hsp, hget]
  · intro p₀ p₁ d hsp hget hfield
    simp [replacer, hsp, hget, hfield]
  · intro p₀ p₁ d fv hsp hget hfield
    simp [replacer, hsp, hget, hfield]
  · intro p₀ p₁ v hsp hget hnd
    cases v with
    | dict d => exact absurd rfl (hnd d)
    | str s => simp [replacer, hsp, hget, pyStr]
    | int n => simp [replacer, hsp, hget]
    | bool b => simp [replacer, hsp, hget]
    | none => simp [replacer, hsp, hget]
    | list l => simp [replacer, hsp, hget]
  · intro hsp hget
    simp [replacer, hsp, hget]
  · intro v hsp hget
    simp [replacer, hsp, hget]

/-- Witness for C4 (amended), scan equation at a concrete string and
context. -/
theorem claim4_witness :
    resolveStr ("v=".data ++ lb :: "a.b".data ++ rb :: "!".data)
        [(.str "a".data, .dict [(.str "b".data, .int 7)])]
      = "v=".data
          ++ replacer "a.b".data [(.str "a".data, .dict [(.str "b".data, .int 7)])]
          ++ resolveStr "!".data [(.str "a".data, .dict [(.str "b".data, .int 7)])] :=
  (claim4_amended "v=".data "a.b".data "!".data
    [(.str "a".data, .dict [(.str "b".data, .int 7)])]
    (by decide) (by decide) (by decide)).1

/-- Counterexample to C3 as stated: the engine passes the template-resolved
step mapping to the executor *without* removing the engine-only fields —
the payload still carries `as` (and likewise `on_error`), and a run with
an echoing executor observes it. -/
theorem claim3_counterexample :
    dictGet (stepPayload [(Val.str "command".data, Val.str "noop".data),
        (asK, Val.str "x".data)] []) asK = some (.str "x".data)
    ∧ sequence
        (fun p => [(succK, .bool true),
          (Val.str "got_as".data, .bool (dictGet p asK).isSome)])
        [.dict [(Val.str "command".data, Val.str "noop".data), (asK, Val.str "x".data)]]
      = some (mkDone [[(succK, .bool true), (Val.str "got_as".data, .bool true),
          (stepK, .int 0), (nameK, .str "x".data)]]) :=
  ⟨rfl, rfl⟩

/-- C3 (amended): the payload handed to the Step Executor is the
template-resolved mapping with *no* field removed: its key list equals the
raw step's key list (so `as`/`on_error` pass through), and every field is
present with its template-resolved value. -/
theorem claim3_amended (s : Dict) (ctx : Dict) :
    (stepPayload s ctx).map Prod.fst = s.map Prod.fst
    ∧ ∀ k v, dictGet s k = some v →
        dictGet (stepPayload s ctx) k = some (applyTemplatesVal ctx v) :=
  ⟨stepPayload_keys s ctx, fun k v hv => by rw [dictGet_stepPayload, hv]; rfl⟩

/-- Witness for C3 (amended): the `as` field survives template resolution
of a concrete step. -/
theorem claim3_witness :
    dictGet (stepPayload [(asK, .str "x".data)] []) asK
      = some (applyTemplatesVal [] (.str "x".data)) :=
  (claim3_amended [(asK, .str "x".data)] []).2 asK (.str "x".data) rfl

/-- Counterexample to C5 as stated: a single conditional step whose branch
executes yields *two* log entries and a reported step count of 2, although
only one list position was processed. -/
theorem claim5_counterexample :
    ([Val.dict [(ifK, .str "1".data),
        (Val.str "then".data, .dict [(Val.str "command".data, .str "x".data)])]] :
        List Val).length = 1
    ∧ sequence (fun _ => [(succK, .bool true)])
        [Val.dict [(ifK, .str "1".data),
          (Val.str "then".data, .dict [(Val.str "command".data, .str "x".data)])]]
      = some (mkDone [condEntry 0 (.str "1".data) true "then".data,
          [(succK, .bool true), (stepK, .int 0), (nameK, .str "step_0".data)]])
    ∧ dictGet (mkDone [condEntry 0 (.str "1".data) true "then".data,
          [(succK, .bool true), (stepK, .int 0), (nameK, .str "step_0".data)]]) runK
        = some (.int 2)
    ∧ (2 : Int) ≠ (1 : Int) :=
  ⟨rfl, rfl, rfl, by decide⟩

/-- C5 (amended): on a run that completes without an abort, the reported
`steps_run` equals the number of *log entries* (a conditional step with an
executed branch contributes two entries, so this can exceed the number of
list positions). -/
theorem claim5_amended (exec : Dict → Dict) (steps : List Val) (res : Dict)
    (hseq : sequence exec steps = some res)
    (hsucc : dictGet res succK = some (.bool true)) :
    ∃ l, dictGet res resK = some (.list l)
      ∧ dictGet res runK = some (.int (l.length : Int)) := by
  unfold sequence at hseq
  cases hloop : seqLoop exec steps 0 [] [] with
  | running c r =>
    rw [hloop] at hseq
    dsimp only at hseq
    injection hseq with hres
    subst hres
    refine ⟨r.map Val.dict, rfl, ?_⟩
    rw [List.length_map]
    rfl
  | aborted c r j nn ee =>
    rw [hloop] at hseq
    dsimp only at hseq
    injection hseq with hres
    subst hres
    exfalso
    have hfalse : dictGet (mkAbort j nn ee r) succK = some (.bool false) := rfl
    rw [hfalse] at hsucc
    injection hsucc with h'
    exact absurd (Val.bool.inj h') (by decide)
  | crashed =>
    rw [hloop] at hseq
    exact absurd hseq (by simp)

/-- Witness for C5 (amended) on the empty run. -/
theorem claim5_witness :
    ∃ l, dictGet ([(succK, .bool true), (runK, .int 0), (resK, .list [])] : Dict) resK
          = some (.list l)
      ∧ dictGet ([(succK, .bool true), (runK, .int 0), (resK, .list [])] : Dict) runK
          = some (.int (l.length : Int)) :=
  claim5_amended (fun _ => []) [] _ rfl rfl

/-- `noAsSteps` is preserved by `take`. -/
theorem noAsSteps_take (steps : List Val) (k : Nat) (h : noAsSteps steps = true) :
    noAsSteps (steps.take k) = true := by
  rw [noAsSteps, List.all_eq_true] at h ⊢
  exact fun x hx => h x (List.mem_of_mem_take hx)

/-- Counterexample to C6 as stated: two steps may carry the same explicit
`as` name, in which case the second write *overwrites* the context entry
the first one created — the context under key `"x"` changes between step 1
and step 2 of this run. -/
theorem claim6_counterexample :
    ctxAfter
        (fun p => [(succK, .bool true),
          (Val.str "tag".data, (dictGet p (Val.str "command".data)).getD .none)])
        [.dict [(asK, .str "x".data), (Val.str "command".data, .str "one".data)],
         .dict [(asK, .str "x".data), (Val.str "command".data, .str "two".data)]] 1
      = some [(.str "x".data,
          .dict [(succK, .bool true), (Val.str "tag".data, .str "one".data)])]
    ∧ ctxAfter
        (fun p => [(succK, .bool true),
          (Val.str "tag".data, (dictGet p (Val.str "command".data)).getD .none)])
        [.dict [(asK, .str "x".data), (Val.str "command".data, .str "one".data)],
         .dict [(asK, .str "x".data), (Val.str "command".data, .str "two".data)]] 2
      = some [(.str "x".data,
          .dict [(succK, .bool true), (Val.str "tag".data, .str "two".data)])]
    ∧ (some [(.str "x".data,
          .dict [(succK, .bool true), (Val.str "tag".data, .str "one".data)])] :
          Option Dict).map (fun c => (dictGet c (.str "x".data)).map pyStr)
        ≠ (some [(.str "x".data,
          .dict [(succK, .bool true), (Val.str "tag".data, .str "two".data)])] :
          Option Dict).map (fun c => (dictGet c (.str "x".data)).map pyStr) :=
  ⟨rfl, rfl, by decide⟩

/-- C6 (amended): when no step (and no conditional branch) carries an
explicit `as`, every executed action is named by its positional default
`step_i`, these names are pairwise distinct, and the context is
append-only: the context at any earlier point of the run is a prefix of
the context at any later point, and its keys stay pairwise distinct.
(With duplicate explicit `as` names a later step can overwrite an earlier
entry, as the counterexample shows.) -/
theorem claim6_append_only (exec : Dict → Dict) (steps : List Val) (m n : Nat)
    (hno : noAsSteps steps = true) (hmn : m ≤ n) (c₂ : Dict)
    (h₂ : ctxAfter exec steps n = some c₂) :
    (∃ c₁, ctxAfter exec steps m = some c₁ ∧ c₁ <+: c₂)
    ∧ (c₂.map Prod.fst).Nodup := by
  have hsplit : steps.take m ++ (steps.take n).drop m = steps.take n := by
    have h₁ : (steps.take n).take m = steps.take m := by
      rw [List.take_take, Nat.min_eq_left hmn]
    conv_rhs => rw [← List.take_append_drop m (steps.take n)]
    rw [h₁]
  unfold ctxAfter at h₂ ⊢
  rw [← hsplit, seqLoop_append] at h₂
  cases hm : seqLoop exec (steps.take m) 0 [] [] with
  | crashed => rw [hm] at h₂; simp [loopCtx] at h₂
  | aborted ctx₁ res₁ j nn ee =>
    rw [hm] at h₂
    dsimp only [loopCtx] at h₂
    injection h₂ with h₂'
    subst h₂'
    refine ⟨⟨ctx₁, rfl, List.prefix_refl _⟩, ?_⟩
    obtain ⟨_, _, hnd⟩ := seqLoop_ctx_mono exec (steps.take m) 0 [] [] ctx₁
      (noAsSteps_take steps m hno) (by simp) (by rw [hm]; rfl)
    exact hnd (by simp)
  | running ctx₁ res₁ =>
    rw [hm] at h₂
    dsimp only at h₂
    obtain ⟨hpre1, hbound1, hnd1⟩ := seqLoop_ctx_mono exec (steps.take m) 0 [] [] ctx₁
      (noAsSteps_take steps m hno) (by simp) (by rw [hm]; rfl)
    have hnoseg : noAsSteps ((steps.take n).drop m) = true := by
      rw [noAsSteps, List.all_eq_true] at hno ⊢
      exact fun x hx => hno x (List.mem_of_mem_take (List.mem_of_mem_drop hx))
    obtain ⟨hpre2, hbound2, hnd2⟩ := seqLoop_ctx_mono exec ((steps.take n).drop m)
      (0 + (steps.take m).length) ctx₁ res₁ c₂ hnoseg
      (fun k hk => by
        obtain ⟨j, hj, hkk⟩ := hbound1 k hk
        exact ⟨j, hj, hkk⟩) h₂
    exact ⟨⟨ctx₁, rfl, hpre2⟩, hnd2 (hnd1 (by simp))⟩

/-- Witness for C6 (amended): a two-step run without `as` names. -/
theorem claim6_witness :
    (∃ c₁, ctxAfter (fun _ => [(succK, .bool true)])
          [.dict [(Val.str "command".data, .str "one".data)],
           .dict [(Val.str "command".data, .str "two".data)]] 1 = some c₁
        ∧ c₁ <+: [(.str "step_0".data, .dict [(succK, .bool true)]),
            (.str "step_1".data, .dict [(succK, .bool true)])])
    ∧ (([(.str "step_0".data, .dict [(succK, .bool true)]),
        (.str "step_1".data, .dict [(succK, .bool true)])] : Dict).map Prod.fst).Nodup :=
  claim6_append_only (fun _ => [(succK, .bool true)])
    [.dict [(Val.str "command".data, .str "one".data)],
     .dict [(Val.str "command".data, .str "two".data)]] 1 2 (by decide) (by decide) _ rfl

/-- C1: with a contract-abiding executor, the run aborts at index `i` —
overall success `false`, `stopped_at_step = i` — exactly when step `i` is
the first executed step whose result carries success flag `false` while
its `on_error` is not exactly `"continue"` (as reported by the spec-side
`abortInfo`); and on every abort the composed message names the step and
echoes its reported error, steps after `i` never execute (the run equals
the run of the first `i + 1` steps), and the ordered results log carries
an entry for every index attempted up to and including `i`. -/
theorem claim1_abort_characterization (exec : Dict → Dict) (hexec : GoodExec exec)
    (steps : List Val) (i : Nat) :
    ((∃ n e, abortInfo exec steps = some (some (i, n, e))) ↔
      (∃ res, sequence exec steps = some res
        ∧ dictGet res succK = some (.bool false)
        ∧ dictGet res stopK = some (.int (i : Int))))
    ∧ (∀ n e, abortInfo exec steps = some (some (i, n, e)) →
        ∃ res l, sequence exec steps = some res
          ∧ dictGet res succK = some (.bool false)
          ∧ dictGet res stopK = some (.int (i : Int))
          ∧ dictGet res errK = some (.str (abortMsg i n e))
          ∧ sequence exec (steps.take (i + 1)) = sequence exec steps
          ∧ dictGet res resK = some (.list l)
          ∧ ∀ j, j ≤ i → ∃ d, Val.dict d ∈ l ∧ dictGet d stepK = some (.int (j : Int))) := by
  have hrel := specAbortInfo_eq_loopOutcome exec hexec steps 0 [] []
  constructor
  · constructor
    · rintro ⟨n, e, hab⟩
      rw [abortInfo, hrel] at hab
      cases hloop : seqLoop exec steps 0 [] [] with
      | crashed => rw [hloop] at hab; exact absurd hab (by simp [loopOutcome])
      | running c r => rw [hloop] at hab; simp [loopOutcome] at hab
      | aborted c r j nn ee =>
        rw [hloop] at hab
        simp only [loopOutcome] at hab
        injection hab with hab'
        injection hab' with hab''
        obtain ⟨hj, hrest⟩ := Prod.mk.inj hab''
        obtain ⟨hn, he⟩ := Prod.mk.inj hrest
        subst hj; subst hn; subst he
        refine ⟨mkAbort j nn ee r, by unfold sequence; rw [hloop], rfl, rfl⟩
    · rintro ⟨res, hseq, hsucc, hstop⟩
      unfold sequence at hseq
      cases hloop : seqLoop exec steps 0 [] [] with
      | crashed => rw [hloop] at hseq; exact absurd hseq (by simp)
      | running c r =>
        rw [hloop] at hseq
        dsimp only at hseq
        injection hseq with hres
        subst hres
        have htrue : dictGet (mkDone r) succK = some (.bool true) := rfl
        rw [htrue] at hsucc
        injection hsucc with h'
        exact absurd (Val.bool.inj h') (by decide)
      | aborted c r j nn ee =>
        rw [hloop] at hseq
        dsimp only at hseq
        injection hseq with hres
        subst hres
        have hstop' : dictGet (mkAbort j nn ee r) stopK = some (.int (j : Int)) := rfl
        rw [hstop'] at hstop
        injection hstop with h'
        have hji : j = i := by exact_mod_cast Val.int.inj h'
        subst hji
        refine ⟨nn, ee, ?_⟩
        rw [abortInfo, hrel, hloop]
        rfl
  · rintro n e hab
    rw [abortInfo, hrel] at hab
    cases hloop : seqLoop exec steps 0 [] [] with
    | crashed => rw [hloop] at hab; exact absurd hab (by simp [loopOutcome])
    | running c r => rw [hloop] at hab; simp [loopOutcome] at hab
    | aborted c r j nn ee =>
      rw [hloop] at hab
      simp only [loopOutcome] at hab
      injection hab with hab'
      injection hab' with hab''
      obtain ⟨hj, hrest⟩ := Prod.mk.inj hab''
      obtain ⟨hn, he⟩ := Prod.mk.inj hrest
      subst hj; subst hn; subst he
      obtain ⟨hsub, hcov⟩ := seqLoop_abort_cov exec steps 0 [] [] c r j nn ee hloop
      obtain ⟨_, _, htake⟩ := seqLoop_abort_take exec steps 0 [] [] c r j nn ee hloop
      refine ⟨mkAbort j nn ee r, r.map Val.dict,
        by unfold sequence; rw [hloop], rfl, rfl, rfl, ?_, rfl, ?_⟩
      · unfold sequence
        rw [hloop]
        simp only [Nat.sub_zero] at htake
        rw [htake]
      · intro jj hjj
        obtain ⟨d, hd, hstep⟩ := hcov jj (Nat.zero_le _) hjj
        exact ⟨d, List.mem_map_of_mem _ hd, hstep⟩

/-- Witness for C1: a single step whose executor reports failure with a
`"boom"` error; the run aborts at index 0 with the composed message. -/
theorem claim1_witness :
    ((∃ n e, abortInfo (fun _ => [(succK, .bool false), (errK, .str "boom".data)])
        [.dict [(Val.str "command".data, .str "x".data)]] = some (some (0, n, e))) ↔
      (∃ res, sequence (fun _ => [(succK, .bool false), (errK, .str "boom".data)])
          [.dict [(Val.str "command".data, .str "x".data)]] = some res
        ∧ dictGet res succK = some (.bool false)
        ∧ dictGet res stopK = some (.int ((0 : Nat) : Int))))
    ∧ (∀ n e, abortInfo (fun _ => [(succK, .bool false), (errK, .str "boom".data)])
          [.dict [(Val.str "command".data, .str "x".data)]] = some (some (0, n, e)) →
        ∃ res l, sequence (fun _ => [(succK, .bool false), (errK, .str "boom".data)])
            [.dict [(Val.str "command".data, .str "x".data)]] = some res
          ∧ dictGet res succK = some (.bool false)
          ∧ dictGet res stopK = some (.int ((0 : Nat) : Int))
          ∧ dictGet res errK = some (.str (abortMsg 0 n e))
          ∧ sequence (fun _ => [(succK, .bool false), (errK, .str "boom".data)])
              (([.dict [(Val.str "command".data, .str "x".data)]] : List Val).take (0 + 1))
            = sequence (fun _ => [(succK, .bool false), (errK, .str "boom".data)])
                [.dict [(Val.str "command".data, .str "x".data)]]
          ∧ dictGet res resK = some (.list l)
          ∧ ∀ j : Nat, j ≤ 0 → ∃ d, Val.dict d ∈ l ∧ dictGet d stepK = some (.int (j : Int))) :=
  claim1_abort_characterization (fun _ => [(succK, .bool false), (errK, .str "boom".data)])
    (fun _ => ⟨false, rfl⟩) [.dict [(Val.str "command".data, .str "x".data)]] 0

end GpioSkill
